import Mathlib

/-!
# Verification of the Nimiq cashlink generator core

Shallow embedding of the cashlink codec (`src/unnamed/part_004`,
`Cashlink.render` / `Cashlink.parse`), the token derivation
(`src/src/index.ts`, `createCashlinks`), the CSV file handler
(`src/unnamed/part_003`), the statistics aggregator
(`src/unnamed/part_000` and `src/unnamed/part_001`, `createStatistics`)
and the mempool-aware transaction broadcaster
(`src/TransactionBroadcaster.js`), together with proofs of the spec's
claims about them.

Bytes are modelled as `Nat` with explicit `< 256` bounds, strings as
`List Char`, and JavaScript `Map` / `Set` state as association lists with
explicit state passing.  The `@nimiq/core` library helpers the code uses
(`BufferUtils.toBase64Url` / `fromBase64Url` with `.`-padding,
`SerialBuffer` big-endian integer IO) are embedded by their documented
semantics; the Blake2b hash is kept as an abstract function parameter.
-/

namespace Nimiq

/-! ## Base64url codec (`BufferUtils.toBase64Url` / `fromBase64Url`)

Nimiq's `BufferUtils.toBase64Url` produces standard base64 with `+`, `/`
replaced by `-`, `_` and the `=` padding replaced by `.`;
`fromBase64Url` is its inverse. -/

/-- The base64url alphabet used by `BufferUtils.toBase64Url`. -/
def b64Alphabet : List Char :=
  [ 'A','B','C','D','E','F','G','H','I','J','K','L','M','N','O','P',
    'Q','R','S','T','U','V','W','X','Y','Z',
    'a','b','c','d','e','f','g','h','i','j','k','l','m','n','o','p',
    'q','r','s','t','u','v','w','x','y','z',
    '0','1','2','3','4','5','6','7','8','9','-','_' ]

/-- Character for a 6-bit value. -/
def b64c (n : Nat) : Char := b64Alphabet.getD n 'A'

/-- 6-bit value of a base64url character, `none` for characters outside
the alphabet. -/
def b64v (c : Char) : Option Nat := b64Alphabet.findIdx? (· = c)

/-- Base64url-encode a byte list, padding with `.` as
`BufferUtils.toBase64Url` does. -/
def b64encode : List Nat → List Char
  | b1 :: b2 :: b3 :: rest =>
      b64c (b1 / 4) :: b64c (b1 % 4 * 16 + b2 / 16) ::
      b64c (b2 % 16 * 4 + b3 / 64) :: b64c (b3 % 64) :: b64encode rest
  | [b1, b2] => [b64c (b1 / 4), b64c (b1 % 4 * 16 + b2 / 16), b64c (b2 % 16 * 4), '.']
  | [b1] => [b64c (b1 / 4), b64c (b1 % 4 * 16), '.', '.']
  | [] => []

/-- Base64url-decode (with `.` padding); `none` on malformed input, as
`BufferUtils.fromBase64Url` throws. -/
def b64decode : List Char → Option (List Nat)
  | [] => some []
  | c1 :: c2 :: c3 :: c4 :: rest =>
      match b64v c1, b64v c2 with
      | some v1, some v2 =>
        if c3 = '.' then
          if c4 = '.' ∧ rest = [] then some [v1 * 4 + v2 / 16] else none
        else
          match b64v c3 with
          | some v3 =>
            if c4 = '.' then
              if rest = [] then some [v1 * 4 + v2 / 16, v2 % 16 * 16 + v3 / 4]
              else none
            else
              match b64v c4, b64decode rest with
              | some v4, some bs =>
                  some ((v1 * 4 + v2 / 16) :: (v2 % 16 * 16 + v3 / 4) ::
                        (v3 % 4 * 64 + v4) :: bs)
              | _, _ => none
          | none => none
      | _, _ => none
  | _ => none

/-! ## Transport mangling (render steps 6-7 and parse steps 2-3)

`render` replaces the `.` padding by `=` (iPhone URL parsing workaround)
and inserts a `~` after every 256 characters of any 257+ run of
`[A-Za-z0-9_]` characters (word-wrap workaround); `parse` strips all `~`
and turns the trailing `=` run back into `.`. -/

/-- `result.replace(/\./g, '=')` from `render`. -/
def dotToEq (s : List Char) : List Char :=
  s.map fun c => if c = '.' then '=' else c

/-- `hash.replace(/~/g, '')` from `parse`. -/
def stripTildes (s : List Char) : List Char := s.filter (· != '~')

/-- Helper for `replaceTrailingEq`: swap the leading `=` run of the
reversed string to `.`. -/
def tailSwapGo : List Char → List Char
  | [] => []
  | c :: r => if c = '=' then '.' :: tailSwapGo r else c :: r

/-- `.replace(/=*$/, (match) => new Array(match.length).fill('.').join(''))`
from `parse`. -/
def replaceTrailingEq (s : List Char) : List Char := (tailSwapGo s.reverse).reverse

/-- The characters the `/[A-Za-z0-9_]{257,}/` regex in `render` matches. -/
def isWordChar (c : Char) : Bool :=
  ('A' ≤ c && c ≤ 'Z') || ('a' ≤ c && c ≤ 'z') || ('0' ≤ c && c ≤ '9') || c = '_'

/-- `match.replace(/.{256}/g, '$&~')` with explicit recursion fuel
(structural recursion, so that the definition evaluates by reduction):
append a `~` to every full block of 256 characters. -/
def tildeEvery256F : Nat → List Char → List Char
  | 0, l => l
  | fuel + 1, l =>
    if 256 ≤ l.length then
      l.take 256 ++ '~' :: tildeEvery256F fuel (l.drop 256)
    else l

/-- `match.replace(/.{256}/g, '$&~')`. -/
def tildeEvery256 (l : List Char) : List Char := tildeEvery256F l.length l

/-- One regex match: runs shorter than 257 characters are left alone. -/
def chunkifyRun (l : List Char) : List Char :=
  if 257 ≤ l.length then tildeEvery256 l else l

/-- `result.replace(/[A-Za-z0-9_]{257,}/g, (match) => ...)` with explicit
recursion fuel: process each maximal run of word characters. -/
def insertTildesF : Nat → List Char → List Char
  | 0, l => l
  | _ + 1, [] => []
  | fuel + 1, c :: rest =>
    if isWordChar c then
      chunkifyRun (c :: rest.takeWhile isWordChar) ++
        insertTildesF fuel (rest.dropWhile isWordChar)
    else c :: insertTildesF fuel rest

/-- `result.replace(/[A-Za-z0-9_]{257,}/g, (match) => ...)`. -/
def insertTildes (s : List Char) : List Char := insertTildesF s.length s

/-! ## `SerialBuffer` 64-bit big-endian integer IO -/

/-- `SerialBuffer.writeUint64`: 8 bytes, big-endian. -/
def writeUint64 (v : Nat) : List Nat :=
  [ v / 72057594037927936 % 256, v / 281474976710656 % 256,
    v / 1099511627776 % 256, v / 4294967296 % 256,
    v / 16777216 % 256, v / 65536 % 256, v / 256 % 256, v % 256 ]

/-- `SerialBuffer.readUint64` applied to 8 bytes. -/
def readUint64 (bs : List Nat) : Nat :=
  bs.foldl (fun acc b => acc * 256 + b) 0

/-! ## The `Cashlink` class (`src/unnamed/part_004`)

A key pair is represented by the 32 private-key bytes it is
deterministically derived from (`KeyPair.derive(PrivateKey...)`); the
message is kept as its UTF-8 bytes, exactly as the class stores it in
`_messageBytes` (`TextEncoder`/`TextDecoder` translate between the bytes
and the user-facing string). -/

/-- A Nimiq key pair, identified by the private key it is derived from. -/
structure KeyPair where
  privateKey : List Nat
  deriving DecidableEq, Repr

/-- `KeyPair.derive(PrivateKey.deserialize(bytes))`: deterministic
derivation from private-key bytes. -/
def KeyPair.derive (privateKeyBytes : List Nat) : KeyPair :=
  ⟨privateKeyBytes⟩

/-- `PrivateKey.SIZE` / `privateKey.serializedSize` for Ed25519 keys. -/
def PRIVATE_KEY_SIZE : Nat := 32

/-- The `Cashlink` class state: base URL, key pair, value in luna,
message bytes and theme. -/
structure Cashlink where
  baseUrl : List Char
  keyPair : KeyPair
  value : Nat
  messageBytes : List Nat
  theme : Nat
  deriving DecidableEq, Repr

/-- The byte buffer `render` serializes:
key ∥ value:u64 ∥ [msgLen:u8 ∥ msg] ∥ [theme:u8]. -/
def serializeCashlink (c : Cashlink) : List Nat :=
  c.keyPair.privateKey ++ writeUint64 c.value ++
    (if c.messageBytes.length ≠ 0 ∨ c.theme ≠ 0 then
      c.messageBytes.length :: c.messageBytes else []) ++
    (if c.theme ≠ 0 then [c.theme] else [])

/-- `Cashlink.render`: serialize, base64url-encode, substitute `.`→`=`,
insert `~` separators, and prefix `baseUrl#`. -/
def render (c : Cashlink) : List Char :=
  c.baseUrl ++ '#' :: insertTildes (dotToEq (b64encode (serializeCashlink c)))

/-- `pat` is a leading block of `s` (`String.prototype.startsWith`). -/
def listStartsWith : List Char → List Char → Bool
  | [], _ => true
  | _ :: _, [] => false
  | p :: ps, c :: cs => p = c && listStartsWith ps cs

/-- `s.includes(pat)` (`String.prototype.includes`). -/
def listContains (pat : List Char) : List Char → Bool
  | [] => listStartsWith pat []
  | c :: cs => listStartsWith pat (c :: cs) || listContains pat cs

/-- Base-URL normalization in `Cashlink.parse` (strip a trailing `/`,
ensure a `/cashlink` path component). -/
def normalizeBaseUrl (baseUrl : List Char) : List Char :=
  let normalized := if baseUrl.getLast? = some '/' then baseUrl.dropLast else baseUrl
  if listContains "/cashlink".toList normalized then normalized
  else normalized ++ "/cashlink".toList

/-- `Cashlink.parse`: split on the first `#`, strip `~`, restore the `.`
padding from the trailing `=` run, base64url-decode, then read the key,
the value, and the optional message and theme. `none` models the throws
on malformed input. -/
def parse (s : List Char) : Option Cashlink :=
  let baseUrl := s.takeWhile (· != '#')
  match s.dropWhile (· != '#') with
  | [] => none
  | _ :: afterHash =>
    let rawHash := afterHash.takeWhile (· != '#')
    let hash := replaceTrailingEq (stripTildes rawHash)
    match b64decode hash with
    | none => none
    | some buf =>
      if buf.length < PRIVATE_KEY_SIZE + 8 then none
      else
        let keyPair := KeyPair.derive (buf.take PRIVATE_KEY_SIZE)
        let value := readUint64 ((buf.drop PRIVATE_KEY_SIZE).take 8)
        let rest := buf.drop (PRIVATE_KEY_SIZE + 8)
        let msgRest : List Nat × List Nat :=
          match rest with
          | [] => ([], [])
          | len :: tl => (tl.take len, tl.drop len)
        let theme : Nat :=
          match msgRest.2 with
          | [] => 0
          | t :: _ => t
        some { baseUrl := normalizeBaseUrl baseUrl, keyPair := keyPair,
               value := value, messageBytes := msgRest.1, theme := theme }

/-- A concrete cashlink: value above 2^53, multi-byte UTF-8 message
("héllo"), non-zero theme. -/
def cEx : Cashlink :=
  { baseUrl := "https://hub.nimiq.com/cashlink".toList
    keyPair := ⟨List.range 32⟩
    value := 9007199254740993
    messageBytes := [104, 195, 169, 108, 108, 111]
    theme := 2 }

/-! ## Token derivation (`createCashlinks`, `src/src/index.ts`)

`crypto.randomBytes` is modelled as a stream (list) of random byte
lists, one per loop iteration — each of length
`Math.ceil(tokenLength * 6 / 8)` as `crypto.randomBytes(n)` guarantees,
carried as a hypothesis on the stream — and `Hash.computeBlake2b` as an
abstract function parameter.  The loop returns `none` when the stream is
exhausted before `count` distinct tokens were generated. -/

/-- `const tokenEntropy = config.tokenLength * 6` (bits; each base64
character encodes 6 bits). -/
def tokenEntropy (tokenLength : Nat) : Nat := tokenLength * 6

/-- The byte count requested from `crypto.randomBytes`:
`Math.ceil(tokenEntropy / 8)`. -/
def randomBytesLen (tokenLength : Nat) : Nat := (tokenEntropy tokenLength + 7) / 8

/-- `BufferUtils.toBase64Url(randomBytes).substring(0, tokenLength)`. -/
def tokenFromBytes (tokenLength : Nat) (randomBytes : List Nat) : List Char :=
  (b64encode randomBytes).take tokenLength

/-- `BufferUtils.fromBase64Url` on an unpadded string (token lengths are
not multiples of 4): a trailing group of 2 or 3 characters decodes to 1
or 2 bytes. -/
def b64decodeLoose : List Char → Option (List Nat)
  | [] => some []
  | [c1, c2] =>
      match b64v c1, b64v c2 with
      | some v1, some v2 => some [v1 * 4 + v2 / 16]
      | _, _ => none
  | [c1, c2, c3] =>
      match b64v c1, b64v c2, b64v c3 with
      | some v1, some v2, some v3 =>
          some [v1 * 4 + v2 / 16, v2 % 16 * 16 + v3 / 4]
      | _, _, _ => none
  | c1 :: c2 :: c3 :: c4 :: rest =>
      if c3 = '.' ∨ c4 = '.' then b64decode (c1 :: c2 :: c3 :: c4 :: rest)
      else
        match b64v c1, b64v c2, b64v c3, b64v c4, b64decodeLoose rest with
        | some v1, some v2, some v3, some v4, some bs =>
            some ((v1 * 4 + v2 / 16) :: (v2 % 16 * 16 + v3 / 4) ::
                  (v3 % 4 * 64 + v4) :: bs)
        | _, _, _, _, _ => none
  | _ => none

/-- The cashlink built for an accepted token: private key =
Blake2b(tokenBytes ∥ secretSalt). -/
def cashlinkForToken (blake2b : List Nat → List Nat) (salt : List Nat)
    (baseUrl : List Char) (value : Nat) (messageBytes : List Nat) (theme : Nat)
    (tokenBytes : List Nat) : Cashlink :=
  { baseUrl := baseUrl
    keyPair := KeyPair.derive (blake2b (tokenBytes ++ salt))
    value := value
    messageBytes := messageBytes
    theme := theme }

/-- The `while (cashlinks.size < cashlinkCount)` loop of
`createCashlinks`: candidates whose token collides with an existing map
key are discarded (`if (cashlinks.has(token)) continue`), all others are
inserted. -/
def createCashlinksLoop (blake2b : List Nat → List Nat) (count tokenLength : Nat)
    (salt : List Nat) (baseUrl : List Char) (value : Nat) (messageBytes : List Nat)
    (theme : Nat) :
    List (List Nat) → List (List Char × Cashlink) →
      Option (List (List Char × Cashlink))
  | randomness, acc =>
    if count ≤ acc.length then some acc
    else
      match randomness with
      | [] => none
      | randomBytes :: rest =>
        let token := tokenFromBytes tokenLength randomBytes
        if token ∈ acc.map Prod.fst then
          createCashlinksLoop blake2b count tokenLength salt baseUrl value
            messageBytes theme rest acc
        else
          match b64decodeLoose token with
          | none => none
          | some tokenBytes =>
            createCashlinksLoop blake2b count tokenLength salt baseUrl value
              messageBytes theme rest
              (acc ++ [(token, cashlinkForToken blake2b salt baseUrl value
                messageBytes theme tokenBytes)])

/-- `createCashlinks(cashlinkCount, cashlinkValue, cashlinkMessage,
cashlinkTheme)` with the configuration and randomness made explicit. -/
def createCashlinks (blake2b : List Nat → List Nat) (count tokenLength : Nat)
    (salt : List Nat) (baseUrl : List Char) (value : Nat) (messageBytes : List Nat)
    (theme : Nat) (randomness : List (List Nat)) :
    Option (List (List Char × Cashlink)) :=
  createCashlinksLoop blake2b count tokenLength salt baseUrl value messageBytes
    theme randomness []

/-- An entry of the generated map: its cashlink is derived from its own
token's raw bytes and the secret salt. -/
def GoodEntry (blake2b : List Nat → List Nat) (salt : List Nat)
    (baseUrl : List Char) (value : Nat) (messageBytes : List Nat) (theme : Nat)
    (p : List Char × Cashlink) : Prop :=
  ∃ tb, b64decodeLoose p.1 = some tb ∧
    p.2 = cashlinkForToken blake2b salt baseUrl value messageBytes theme tb

/-- The Blake2b stand-in used by the concrete witness. -/
def blakeEx (bs : List Nat) : List Nat := [bs.foldl (· + ·) 0 % 256]

/-- The batch `createCashlinks` produces on the witness randomness
`[[0,1,2],[0,1,2],[4,5,6]]` (the repeated candidate is discarded). -/
def mEx : List (List Char × Cashlink) :=
  [ (['A','A','E'], Cashlink.mk ['u','r','l'] ⟨[8]⟩ 5 [] 0),
    (['B','A','U'], Cashlink.mk ['u','r','l'] ⟨[16]⟩ 5 [] 0) ]

/-! ## CSV file handler (`src/unnamed/part_003`)

One CSV record, as produced by `exportCashlinks` and consumed by the
per-line body of `importCashlinks`.  The import hand-parses the URL
fragment: it derives the key pair from the `privateKeyBase64` column,
skips the private-key bytes of the fragment, reads the value and the
optional message — and never reads the theme byte, so the constructed
`Cashlink` gets the constructor default theme `UNSPECIFIED = 0`. -/

/-- One line of the CSV batch file:
`token,shortLink,imageFile,cashlinkUrl,privateKeyBase64`. -/
structure CsvRecord where
  token : List Char
  shortLink : List Char
  imageFile : List Char
  cashlinkUrl : List Char
  privateKeyBase64 : List Char
  deriving DecidableEq, Repr

/-- `exportCashlinks`, restricted to one map entry:
`${token},${shortLink},${imageFile},${cashlink.render()},${privateKeyBase64}`. -/
def exportRecord (token shortLink imageFile : List Char) (c : Cashlink) :
    CsvRecord :=
  { token := token, shortLink := shortLink, imageFile := imageFile,
    cashlinkUrl := render c,
    privateKeyBase64 := b64encode c.keyPair.privateKey }

/-- `BufferUtils.fromBase64Url` as the import uses it: the fragment still
carries the `=` substitution, which the decoder treats as padding
(`fromBase64Url` maps `.` to `=` and decodes standard base64). -/
def fromBase64UrlEq (s : List Char) : Option (List Nat) :=
  b64decode (s.map fun c => if c = '=' then '.' else c)

/-- The `try` block of `importCashlinks` for one record. -/
def importRecord (r : CsvRecord) : Option Cashlink :=
  match b64decode r.privateKeyBase64 with
  | none => none
  | some privateKeyBytes =>
    let keyPair := KeyPair.derive privateKeyBytes
    match r.cashlinkUrl.dropWhile (· != '#') with
    | [] => none
    | _ :: afterHash =>
      let encodedData := afterHash.takeWhile (· != ',')
      match fromBase64UrlEq encodedData with
      | none => none
      | some decoded =>
        if decoded.length < PRIVATE_KEY_SIZE + 8 then none
        else
          let value := readUint64 ((decoded.drop PRIVATE_KEY_SIZE).take 8)
          let rest := decoded.drop (PRIVATE_KEY_SIZE + 8)
          let messageBytes : List Nat :=
            match rest with
            | [] => []
            | len :: tl => tl.take len
          some { baseUrl := r.cashlinkUrl.takeWhile (· != '#'),
                 keyPair := keyPair, value := value,
                 messageBytes := messageBytes, theme := 0 }

/-- A cashlink with a non-zero theme (`GENERIC = 5`), the input on which
the export/import round trip loses the theme. -/
def c7Ex : Cashlink :=
  { baseUrl := "https://hub.nimiq.com/cashlink".toList
    keyPair := ⟨List.range 32⟩
    value := 123456
    messageBytes := [104, 105]
    theme := 5 }

/-! ## Statistics fetch pacing (`createStatistics`)

Both revisions of `createStatistics` loop over the cashlinks and start
one `getTransactionsByAddress` fetch per iteration, collecting the
promises and awaiting them together.  The initiation instants are
modelled as the running sum of the per-iteration delays awaited between
successive initiations. -/

/-- `60000 / FullConsensusAgent.TRANSACTION_RECEIPTS_RATE_LIMIT +
/* extra delay for safety */ 30` (`src/unnamed/part_000`, line 212). -/
def throttleDelay (rate : Nat) : Nat := 60000 / rate + 30

/-- Initiation instant of the i-th fetch, given the delay awaited after
each initiation. -/
def initTime (delays : Nat → Nat) : Nat → Nat
  | 0 => 0
  | i + 1 => initTime delays i + delays i

/-- The delay the JS `createStatistics` (`src/unnamed/part_000`, lines
208-214) awaits after initiating fetch `i`:
`if (processed < cashlinks.size) await ...throttleDelay...`, where
`processedAt i` is the number of fetches already completed at that
moment. -/
def jsStatsDelay (n rate : Nat) (processedAt : Nat → Nat) (i : Nat) : Nat :=
  if processedAt i < n then throttleDelay rate else 0

/-- The TypeScript `createStatistics` (`src/unnamed/part_001`, lines
53-101) contains no await in its initiation loop: nothing is awaited
between successive fetch initiations. -/
def tsStatsDelay (_i : Nat) : Nat := 0

/-! ## Broadcast retry loop (`sendTransactionUntilSuccess`,
`src/TransactionBroadcaster.js` lines 22-43)

The node is modelled as an oracle saying whether the `sendTransaction`
RPC call of a given attempt succeeds.  The loop produces a trace of
events (a logged failure, a 60 s timer, a successful send) and resolves
the broadcast promise with the index of the first successful attempt;
`fuel` bounds how many attempts we observe (the real loop is unbounded). -/

/-- Observable events of one `sendTransactionUntilSuccess` run. -/
inductive SendEvent where
  | attemptFail
  | delay (ms : Nat)
  | attemptOk
  deriving DecidableEq, Repr

/-- `sendTransactionUntilSuccess`: try `sendTransaction`; on success
resolve, on failure log and retry after `setTimeout(..., 60000)`. -/
def sendTransactionUntilSuccess (oracle : Nat → Bool) :
    Nat → Nat → List SendEvent × Option Nat
  | 0, _ => ([], none)
  | fuel + 1, k =>
    if oracle k then ([SendEvent.attemptOk], some k)
    else
      (SendEvent.attemptFail :: SendEvent.delay 60000 ::
        (sendTransactionUntilSuccess oracle fuel (k + 1)).1,
       (sendTransactionUntilSuccess oracle fuel (k + 1)).2)

/-- `awaitPendingBroadcasts` (`Promise.all(this._broadcastPromises)`):
resolved exactly when every pending broadcast promise is resolved. -/
def awaitPendingBroadcasts (promises : List (Option Nat)) : Bool :=
  promises.all Option.isSome

/-- The mock node of the C4 scenario: fails attempts 0 and 1, succeeds
on attempt 2. -/
def oracleEx (n : Nat) : Bool := n = 2

/-! ## JS `Map`/`Set` as association lists

`Map` keeps insertion order; `set` on an existing key updates in place,
on a fresh key appends; `delete` removes the entry.  A `Set` of hashes
is a duplicate-free list with `add` appending when absent. -/

/-- `Map.prototype.get`. -/
def alookup {α : Type} (k : Nat) : List (Nat × α) → Option α
  | [] => none
  | (k', v) :: rest => if k' = k then some v else alookup k rest

/-- `Map.prototype.set`. -/
def aset {α : Type} (k : Nat) (v : α) : List (Nat × α) → List (Nat × α)
  | [] => [(k, v)]
  | (k', v') :: rest => if k' = k then (k', v) :: rest else (k', v') :: aset k v rest

/-- `Map.prototype.delete`. -/
def aerase {α : Type} (k : Nat) : List (Nat × α) → List (Nat × α)
  | [] => []
  | (k', v') :: rest => if k' = k then rest else (k', v') :: aerase k rest

/-- `Set.prototype.add`. -/
def sadd (h : Nat) (s : List Nat) : List Nat := if h ∈ s then s else s ++ [h]

/-! ## Mempool bookkeeping (`src/TransactionBroadcaster.js` lines 129-152)

The two structures `_mempoolTransactionsPerSender` (user-friendly sender
address → `Set` of hex hashes) and `_senderPerMempoolTransaction` (hex
hash → sender address), with the mutators `_addMempoolTransaction` and
`_removeMempoolTransaction` and the reader
`_getMempoolTransactionCount`.  Hashes and addresses are `Nat`. -/

/-- The pair of mutually-indexing mempool maps. -/
structure MpState where
  mpTx : List (Nat × List Nat)
  rev : List (Nat × Nat)
  deriving DecidableEq, Repr

/-- The state after the constructor, before any mempool seeding. -/
def MpState.empty : MpState := ⟨[], []⟩

/-- `_getMempoolTransactionCount`. -/
def getMempoolTransactionCount (a : Nat) (s : MpState) : Nat :=
  ((alookup a s.mpTx).getD []).length

/-- `_addMempoolTransaction(hashHex, senderUserFriendlyAddress)`. -/
def addMempoolTransaction (h a : Nat) (s : MpState) : MpState :=
  { mpTx := aset a (sadd h ((alookup a s.mpTx).getD [])) s.mpTx
    rev := aset h a s.rev }

/-- `_removeMempoolTransaction(hashHex, senderUserFriendlyAddress)`:
delete the hash from the sender's set, or the whole sender entry when it
was the last one. -/
def removeMempoolTransaction (h a : Nat) (s : MpState) : MpState :=
  { mpTx :=
      if 1 < ((alookup a s.mpTx).getD []).length then
        aset a (((alookup a s.mpTx).getD []).erase h) s.mpTx
      else aerase a s.mpTx
    rev := aerase h s.rev }

/-- The mutator calls reachable through `broadcastTransaction` and the
mining poll: an add is only performed for a hash that is not yet tracked
(a freshly, successfully broadcast transaction, or the initial mempool
seeding of distinct hashes), and a removal only for an entry of the
reverse index (the mining loop iterates `_senderPerMempoolTransaction`). -/
inductive MpStep : MpState → MpState → Prop where
  | add (h a : Nat) (s : MpState) (hfresh : alookup h s.rev = none) :
      MpStep s (addMempoolTransaction h a s)
  | remove (h a : Nat) (s : MpState) (hmem : (h, a) ∈ s.rev) :
      MpStep s (removeMempoolTransaction h a s)

/-- Consistency of the two maps: no duplicate keys, no empty tracked
set, and `h` is in the tracked set of `a` iff the reverse index maps `h`
to `a`. -/
def MpInv (s : MpState) : Prop :=
  (s.mpTx.map Prod.fst).Nodup ∧
  (s.rev.map Prod.fst).Nodup ∧
  (∀ p ∈ s.mpTx, p.2 ≠ [] ∧ p.2.Nodup) ∧
  (∀ h a : Nat, (h, a) ∈ s.rev ↔ ∃ set, (a, set) ∈ s.mpTx ∧ h ∈ set)

/-- The broadcaster mempool state after adding hashes 1, 2 (sender 10)
and 3 (sender 20) and removing mined hash 1. -/
def mpEx : MpState :=
  removeMempoolTransaction 1 10 (addMempoolTransaction 3 20
    (addMempoolTransaction 2 10 (addMempoolTransaction 1 10 MpState.empty)))

/-! ## The broadcaster as a labelled transition system
(`src/TransactionBroadcaster.js`)

JavaScript's cooperative scheduling suspends only at `await`
points; the synchronous blocks between suspension points are the atomic
steps.  Each call `broadcastTransaction(tx)` consists of two guard
sub-tasks started by `Promise.all` (`_awaitFreeBroadcastSlot`,
`_awaitFreeMempoolSlot`), the continuation of lines 20-47 (create the
broadcast promise, dispatch the send, claim a `_broadcastPromises` slot,
splice the broadcast wait list), the send retry loop, and the `.then`
cleanup of lines 30-43.  The scheduler is nondeterministic: any enabled
step of any task may run at a suspension point, which over-approximates
the real microtask orderings. -/

/-- Static data of a transaction. -/
structure Tx where
  sender : Nat
  hash : Nat
  feePerByte : Nat
  deriving DecidableEq, Repr

/-- The broadcaster configuration: the `@nimiq/core` constants and the
transaction population, indexed by task id. -/
structure BCfg where
  K : Nat
  FREE_MAX : Nat
  PAID_MAX : Nat
  RELAY_MIN : Nat
  txs : Nat → Tx

/-- `transaction.feePerByte < Mempool.TRANSACTION_RELAY_FEE_MIN`. -/
def isFree (cfg : BCfg) (t : Nat) : Bool :=
  (cfg.txs t).feePerByte < cfg.RELAY_MIN

/-- The applicable per-sender mempool limit (`maxMempoolSlots`). -/
def limit (cfg : BCfg) (t : Nat) : Nat :=
  if isFree cfg t then cfg.FREE_MAX else cfg.PAID_MAX

/-- Progress of a task through `_awaitFreeBroadcastSlot`. -/
inductive BPhase where
  | idle | queued | passed
  deriving DecidableEq, Repr

/-- Progress of a task through `_awaitFreeMempoolSlot`. -/
inductive MPhase where
  | idle | queued | passed
  deriving DecidableEq, Repr

/-- Progress of a task through the continuation: `sending` after the
broadcast promise is claimed, `resolved` after the send succeeded,
`finished` after the `.then` cleanup ran. -/
inductive CPhase where
  | notStarted | sending | resolved | finished
  deriving DecidableEq, Repr

/-- Per-task phase triple. -/
structure TaskState where
  b : BPhase
  m : MPhase
  c : CPhase
  deriving DecidableEq, Repr

/-- The broadcaster instance state. -/
structure BState where
  wl : List Nat
  inflight : List Nat
  mpWl : List (Nat × List Nat)
  mp : MpState
  tasks : Nat → TaskState
  miningActive : Bool
  loops : Nat
  lastHeight : Nat

/-- The reverse-index entries whose hash is no longer in the node's
mempool (interpreted as mined). -/
def minedEntries (mempoolNow : List Nat) (mp : MpState) : List (Nat × Nat) :=
  mp.rev.filter fun p => !(mempoolNow.contains p.1)

/-- The removal sweep of `_awaitTransactionMining` (lines 107-112):
remove every tracked hash absent from the fresh mempool query. -/
def removeMined (mempoolNow : List Nat) (mp : MpState) : MpState :=
  (minedEntries mempoolNow mp).foldl
    (fun acc p => removeMempoolTransaction p.1 p.2 acc) mp

/-- Step labels; `pollSame`/`pollNew` are iterations of the single
mining poll loop with the freshly fetched block height (and, only when
the height changed, the freshly fetched mempool hash set). -/
inductive BLabel where
  | startB (t : Nat)
  | passB (t : Nat)
  | startM (t : Nat)
  | passM (t : Nat)
  | runCont (t : Nat)
  | sendFail (t : Nat)
  | sendOk (t : Nat)
  | cleanup (t : Nat)
  | awaitMining (t : Nat)
  | pollSame (ht : Nat)
  | pollNew (ht : Nat) (mempoolNow : List Nat)
  deriving DecidableEq, Repr

/-- One atomic step of the broadcaster. -/
inductive BStep (cfg : BCfg) : BState → BLabel → BState → Prop where
  | startB (t : Nat) (s : BState)
      (hb : (s.tasks t).b = BPhase.idle) (hc : (s.tasks t).c = CPhase.notStarted) :
      BStep cfg s (BLabel.startB t)
        { s with
          wl := s.wl ++ [t]
          tasks := Function.update s.tasks t { s.tasks t with b := BPhase.queued } }
  | passB (t : Nat) (s : BState)
      (hb : (s.tasks t).b = BPhase.queued)
      (hguard : s.wl.indexOf t < cfg.K - s.inflight.length) :
      BStep cfg s (BLabel.passB t)
        { s with
          tasks := Function.update s.tasks t { s.tasks t with b := BPhase.passed } }
  | startM (t : Nat) (s : BState)
      (hm : (s.tasks t).m = MPhase.idle) (hc : (s.tasks t).c = CPhase.notStarted) :
      BStep cfg s (BLabel.startM t)
        { s with
          mpWl := aset (cfg.txs t).sender
            (((alookup (cfg.txs t).sender s.mpWl).getD []) ++ [t]) s.mpWl
          tasks := Function.update s.tasks t
            { s.tasks t with m := MPhase.queued } }
  | passM (t : Nat) (s : BState)
      (hm : (s.tasks t).m = MPhase.queued)
      (hguard : ((alookup (cfg.txs t).sender s.mpWl).getD []).indexOf t <
        limit cfg t - getMempoolTransactionCount (cfg.txs t).sender s.mp) :
      BStep cfg s (BLabel.passM t)
        { s with
          tasks := Function.update s.tasks t { s.tasks t with m := MPhase.passed } }
  | runCont (t : Nat) (s : BState)
      (hb : (s.tasks t).b = BPhase.passed) (hm : (s.tasks t).m = MPhase.passed)
      (hc : (s.tasks t).c = CPhase.notStarted) :
      BStep cfg s (BLabel.runCont t)
        { s with
          inflight := s.inflight ++ [t]
          wl := s.wl.erase t
          tasks := Function.update s.tasks t
            { s.tasks t with c := CPhase.sending } }
  | sendFail (t : Nat) (s : BState) (hc : (s.tasks t).c = CPhase.sending) :
      BStep cfg s (BLabel.sendFail t) s
  | sendOk (t : Nat) (s : BState) (hc : (s.tasks t).c = CPhase.sending) :
      BStep cfg s (BLabel.sendOk t)
        { s with
          tasks := Function.update s.tasks t { s.tasks t with c := CPhase.resolved } }
  | cleanup (t : Nat) (s : BState) (hc : (s.tasks t).c = CPhase.resolved) :
      BStep cfg s (BLabel.cleanup t)
        { s with
          mp := addMempoolTransaction (cfg.txs t).hash (cfg.txs t).sender s.mp
          mpWl :=
            (if 1 < ((alookup (cfg.txs t).sender s.mpWl).getD []).length then
              aset (cfg.txs t).sender
                (((alookup (cfg.txs t).sender s.mpWl).getD []).erase t) s.mpWl
            else aerase (cfg.txs t).sender s.mpWl)
          inflight := s.inflight.erase t
          tasks := Function.update s.tasks t
            { s.tasks t with c := CPhase.finished } }
  | awaitMining (t : Nat) (s : BState) (hm : (s.tasks t).m = MPhase.queued) :
      BStep cfg s (BLabel.awaitMining t)
        { s with
          miningActive := true
          loops := if s.miningActive then s.loops else s.loops + 1 }
  | pollSame (ht : Nat) (s : BState) (hl : 0 < s.loops)
      (hsame : ht = s.lastHeight) :
      BStep cfg s (BLabel.pollSame ht) s
  | pollNew (ht : Nat) (mempoolNow : List Nat) (s : BState) (hl : 0 < s.loops)
      (hdiff : ht ≠ s.lastHeight) :
      BStep cfg s (BLabel.pollNew ht mempoolNow)
        { s with
          lastHeight := ht
          mp := removeMined mempoolNow s.mp
          miningActive :=
            if minedEntries mempoolNow s.mp ≠ [] then false else s.miningActive
          loops :=
            if minedEntries mempoolNow s.mp ≠ [] then s.loops - 1 else s.loops }

/-- The broadcaster state after the constructor seeded its view of the
node's mempool (`rpcClient.getMempoolTransactions(true)`). -/
def initState (seed : List (Nat × Nat)) : BState :=
  { wl := []
    inflight := []
    mpWl := []
    mp := seed.foldl (fun acc p => addMempoolTransaction p.1 p.2 acc) MpState.empty
    tasks := fun _ => ⟨BPhase.idle, MPhase.idle, CPhase.notStarted⟩
    miningActive := false
    loops := 0
    lastHeight := 0 }

/-- Reachability from the seeded initial state. -/
def Reaches (cfg : BCfg) (seed : List (Nat × Nat)) (s : BState) : Prop :=
  Relation.ReflTransGen (fun x y => ∃ l, BStep cfg x l y) (initState seed) s

/-- The broadcast-slot side of the broadcaster invariant: the wait list
holds exactly the queued-or-passed, not-yet-claimed tasks, the in-flight
promise set holds exactly the dispatched-but-uncleaned tasks, and every
guard-passed task's wait-list position is still below the free-slot
count. -/
structure InvB (cfg : BCfg) (s : BState) : Prop where
  wlNodup : s.wl.Nodup
  wlMem : ∀ t, t ∈ s.wl ↔
    ((s.tasks t).b ≠ BPhase.idle ∧ (s.tasks t).c = CPhase.notStarted)
  inflightNodup : s.inflight.Nodup
  inflightMem : ∀ t, t ∈ s.inflight ↔
    ((s.tasks t).c = CPhase.sending ∨ (s.tasks t).c = CPhase.resolved)
  bJ : ∀ t, (s.tasks t).b = BPhase.passed → (s.tasks t).c = CPhase.notStarted →
    s.wl.indexOf t < cfg.K - s.inflight.length
  bound : s.inflight.length ≤ cfg.K

/-- The configuration used by the concrete witnesses: limit 2 parallel
broadcasts, free limit 1, paid limit 10, relay fee minimum 1,
transaction id `n` with sender `n`, hash `n`, fee-per-byte 0. -/
def cfgEx : BCfg :=
  { K := 2, FREE_MAX := 1, PAID_MAX := 10, RELAY_MIN := 1,
    txs := fun n => ⟨n, n, 0⟩ }

/-- The single-mining-loop invariant: `_transactionMiningPromise` is set
exactly while one `checkForMinedTransactions` loop runs, and there is
never more than one. -/
structure LoopInv (s : BState) : Prop where
  atMostOne : s.loops ≤ 1
  active_iff : s.miningActive = true ↔ s.loops = 1

/-- Once a task's continuation has run, both guards had passed. -/
structure InvP (s : BState) : Prop where
  started : ∀ t, (s.tasks t).c ≠ CPhase.notStarted →
    (s.tasks t).b = BPhase.passed ∧ (s.tasks t).m = MPhase.passed

/-- The mempool-slot side of the broadcaster invariant: the per-sender
wait lists (`_transactionsToSendPerSender`) hold exactly the tasks whose
mempool guard has started and whose cleanup has not run, every
guard-passed task's wait-list position is still below the sender's free
mempool slots, the two tracking maps are consistent, every tracked hash
stems from the initial seeding or from a finished task, and no tracked
count exceeds the applicable per-sender limit. -/
structure InvM (cfg : BCfg) (seed : List (Nat × Nat)) (s : BState) : Prop where
  mpWlKeys : (s.mpWl.map Prod.fst).Nodup
  mpWlNodup : ∀ a, ((alookup a s.mpWl).getD []).Nodup
  mpWlMem : ∀ a t, t ∈ (alookup a s.mpWl).getD [] ↔
    (a = (cfg.txs t).sender ∧ (s.tasks t).m ≠ MPhase.idle ∧
      (s.tasks t).c ≠ CPhase.finished)
  mJ : ∀ t, (s.tasks t).m = MPhase.passed → (s.tasks t).c ≠ CPhase.finished →
    ((alookup (cfg.txs t).sender s.mpWl).getD []).indexOf t <
      limit cfg t - getMempoolTransactionCount (cfg.txs t).sender s.mp
  mpinv : MpInv s.mp
  tracked : ∀ h a, (h, a) ∈ s.mp.rev → (h, a) ∈ seed ∨
    ∃ u, (cfg.txs u).hash = h ∧ (cfg.txs u).sender = a ∧
      (s.tasks u).c = CPhase.finished
  mCount : ∀ t : Nat,
    getMempoolTransactionCount (cfg.txs t).sender s.mp ≤ limit cfg t

/-! ## Statistics classification (`src/unnamed/part_001` lines 54-102) -/

/-- A transaction as returned by `getTransactionsByAddress`: the fields
the classification loop reads. -/
structure RpcTx where
  toAddr : Nat
  timestamp : Nat
  deriving DecidableEq, Repr

/-- The shared maps `claimsPerAddress` and `claimsPerDate` (the latter
maps a day key to `[claims, claims only counting first timers]`). -/
structure StatMaps where
  cpa : List (Nat × Nat)
  cpd : List (Nat × (Nat × Nat))
  deriving DecidableEq, Repr

/-- The per-cashlink flags of one `statisticPromise` continuation plus
the shared maps. -/
structure ScanAcc where
  wasFunded : Bool
  wasUserClaimed : Bool
  wasReclaimed : Bool
  maps : StatMaps
  deriving DecidableEq, Repr

/-- The body of the transaction loop (lines 65-86): classify one
transaction of the cashlink with address `caddr` and, for a user claim,
update `claimsPerAddress` and `claimsPerDate`. `dayOf` abstracts the
`Intl.DateTimeFormat` day key of a timestamp in the configured
timezone. -/
def scanTx (reclaim : Option Nat) (dayOf : Nat → Nat) (caddr : Nat)
    (acc : ScanAcc) (tx : RpcTx) : ScanAcc :=
  if tx.toAddr = caddr then
    { acc with wasFunded := true }
  else if some tx.toAddr = reclaim then
    { acc with wasReclaimed := true }
  else
    let prev := (alookup tx.toAddr acc.maps.cpa).getD 0
    let d := dayOf tx.timestamp
    let pd := (alookup d acc.maps.cpd).getD (0, 0)
    { wasFunded := acc.wasFunded
      wasUserClaimed := true
      wasReclaimed := acc.wasReclaimed
      maps :=
        { cpa := aset tx.toAddr (prev + 1) acc.maps.cpa
          cpd := aset d (pd.1 + 1, pd.2 + (if prev = 0 then 1 else 0))
            acc.maps.cpd } }

/-- The whole-run counters of `createStatistics`. -/
structure StatState where
  processed : Nat
  funded : Nat
  userClaimed : Nat
  reclaimed : Nat
  unclaimed : Nat
  maps : StatMaps
  deriving DecidableEq, Repr

/-- One `statisticPromise` continuation (lines 59-99): scan the
cashlink's transactions with fresh flags, then bump the counters. -/
def processCashlink (reclaim : Option Nat) (dayOf : Nat → Nat)
    (st : StatState) (c : Nat × List RpcTx) : StatState :=
  let scan := c.2.foldl (scanTx reclaim dayOf c.1)
    { wasFunded := false
      wasUserClaimed := false
      wasReclaimed := false
      maps := st.maps }
  { processed := st.processed + 1
    funded := st.funded + (if scan.wasFunded then 1 else 0)
    userClaimed := st.userClaimed + (if scan.wasUserClaimed then 1 else 0)
    reclaimed := st.reclaimed + (if scan.wasReclaimed then 1 else 0)
    unclaimed := st.unclaimed +
      (if scan.wasFunded && !scan.wasUserClaimed && !scan.wasReclaimed
        then 1 else 0)
    maps := scan.maps }

def initStats : StatState :=
  { processed := 0
    funded := 0
    userClaimed := 0
    reclaimed := 0
    unclaimed := 0
    maps := { cpa := [], cpd := [] } }

/-- The classification pass of `createStatistics` over the batch of
(cashlink address, transaction history) pairs, in processing order. -/
def createStatisticsCore (reclaim : Option Nat) (dayOf : Nat → Nat)
    (batch : List (Nat × List RpcTx)) : StatState :=
  batch.foldl (processCashlink reclaim dayOf) initStats

/-- A transaction that hits the else branch: neither a funding nor a
reclaim transaction, i.e. a user claim. -/
def isClaimTx (reclaim : Option Nat) (caddr : Nat) (tx : RpcTx) : Bool :=
  !(tx.toAddr == caddr) && !(some tx.toAddr == reclaim)

/-- The claim events of one cashlink, in scan order: destination address
and day of each user claim. -/
def txEvents (reclaim : Option Nat) (dayOf : Nat → Nat)
    (c : Nat × List RpcTx) : List (Nat × Nat) :=
  (c.2.filter (isClaimTx reclaim c.1)).map
    (fun tx => (tx.toAddr, dayOf tx.timestamp))

/-- All claim events of the batch in processing order. -/
def claimEvents (reclaim : Option Nat) (dayOf : Nat → Nat)
    (batch : List (Nat × List RpcTx)) : List (Nat × Nat) :=
  (batch.map (txEvents reclaim dayOf)).flatten

def countAddr (evs : List (Nat × Nat)) (a : Nat) : Nat :=
  (evs.filter (fun e => e.1 == a)).length

def countDay (evs : List (Nat × Nat)) (d : Nat) : Nat :=
  (evs.filter (fun e => e.2 == d)).length

/-- The subsequence of events that are the first claim by their address
across the whole sequence. -/
def firstOcc : List (Nat × Nat) → List Nat → List (Nat × Nat)
  | [], _ => []
  | e :: rest, seen =>
    if e.1 ∈ seen then firstOcc rest seen
    else e :: firstOcc rest (e.1 :: seen)

def countFirstDay (evs : List (Nat × Nat)) (d : Nat) : Nat :=
  ((firstOcc evs []).filter (fun e => e.2 == d)).length

/-- The shared-map part of one claim event's update (lines 75-84). -/
def evStep (m : StatMaps) (e : Nat × Nat) : StatMaps :=
  let prev := (alookup e.1 m.cpa).getD 0
  let pd := (alookup e.2 m.cpd).getD (0, 0)
  { cpa := aset e.1 (prev + 1) m.cpa
    cpd := aset e.2 (pd.1 + 1, pd.2 + (if prev = 0 then 1 else 0)) m.cpd }

theorem b64v_b64c (n : Nat) (h : n < 64) : b64v (b64c n) = some n := by
  have : ∀ m : Fin 64, b64v (b64c m.val) = some m.val := by decide
  exact this ⟨n, h⟩

theorem b64c_ne_dot (n : Nat) (h : n < 64) : b64c n ≠ '.' := by
  have : ∀ m : Fin 64, b64c m.val ≠ '.' := by decide
  exact this ⟨n, h⟩

theorem b64_roundtrip (bs : List Nat) (h : ∀ b ∈ bs, b < 256) :
    b64decode (b64encode bs) = some bs := by
  induction bs using b64encode.induct with
  | case1 b1 b2 b3 rest ih =>
    have hb1 : b1 < 256 := h b1 (by simp)
    have hb2 : b2 < 256 := h b2 (by simp)
    have hb3 : b3 < 256 := h b3 (by simp)
    have h1 : b1 / 4 < 64 := by omega
    have h2 : b1 % 4 * 16 + b2 / 16 < 64 := by omega
    have h3 : b2 % 16 * 4 + b3 / 64 < 64 := by omega
    have h4 : b3 % 64 < 64 := by omega
    have ih' := ih (fun b hb => h b (by simp [hb]))
    simp only [b64encode, b64decode, b64v_b64c _ h1, b64v_b64c _ h2,
      b64v_b64c _ h3, b64v_b64c _ h4, b64c_ne_dot _ h3, b64c_ne_dot _ h4,
      if_false, ih']
    simp only [Option.some.injEq, List.cons.injEq]
    refine ⟨by omega, by omega, by omega, trivial⟩
  | case2 b1 b2 =>
    have hb1 : b1 < 256 := h b1 (by simp)
    have hb2 : b2 < 256 := h b2 (by simp)
    have h1 : b1 / 4 < 64 := by omega
    have h2 : b1 % 4 * 16 + b2 / 16 < 64 := by omega
    have h3 : b2 % 16 * 4 < 64 := by omega
    simp only [b64encode, b64decode, b64v_b64c _ h1, b64v_b64c _ h2,
      b64v_b64c _ h3, b64c_ne_dot _ h3, if_false, if_true, and_self]
    simp only [Option.some.injEq, List.cons.injEq]
    refine ⟨by omega, by omega, trivial⟩
  | case3 b1 =>
    have hb1 : b1 < 256 := h b1 (by simp)
    have h1 : b1 / 4 < 64 := by omega
    have h2 : b1 % 4 * 16 < 64 := by omega
    simp [b64encode, b64decode, b64v_b64c _ h1, b64v_b64c _ h2]
    omega
  | case4 => simp [b64encode, b64decode]

theorem b64c_mem (n : Nat) : b64c n ∈ b64Alphabet := by
  by_cases h : n < 64
  · have : ∀ m : Fin 64, b64c m.val ∈ b64Alphabet := by decide
    exact this ⟨n, h⟩
  · have hlen : b64Alphabet.length ≤ n := by
      rw [show b64Alphabet.length = 64 from rfl]; omega
    rw [b64c, List.getD_eq_default _ _ hlen]
    decide

/-- Every character of a base64url encoding is an alphabet character or
the `.` padding, and the padding is a trailing run of at most two dots. -/
theorem b64encode_shape (bs : List Nat) :
    ∃ core k, b64encode bs = core ++ List.replicate k '.' ∧
      (∀ c ∈ core, c ∈ b64Alphabet) ∧ k ≤ 2 := by
  induction bs using b64encode.induct with
  | case1 b1 b2 b3 rest ih =>
    obtain ⟨core, k, henc, hcore, hk⟩ := ih
    refine ⟨b64c (b1 / 4) :: b64c (b1 % 4 * 16 + b2 / 16) ::
      b64c (b2 % 16 * 4 + b3 / 64) :: b64c (b3 % 64) :: core, k, ?_, ?_, hk⟩
    · simp [b64encode, henc]
    · intro c hc
      simp only [List.mem_cons] at hc
      rcases hc with h | h | h | h | h <;>
        first
        | (subst h; exact b64c_mem _)
        | exact hcore c h
  | case2 b1 b2 =>
    exact ⟨[b64c (b1 / 4), b64c (b1 % 4 * 16 + b2 / 16), b64c (b2 % 16 * 4)], 1,
      by simp [b64encode, List.replicate], by
        intro c hc
        simp only [List.mem_cons] at hc
        rcases hc with h | h | h | h <;> first | (subst h; exact b64c_mem _) | simp at h,
      by omega⟩
  | case3 b1 =>
    exact ⟨[b64c (b1 / 4), b64c (b1 % 4 * 16)], 2,
      by simp [b64encode, List.replicate], by
        intro c hc
        simp only [List.mem_cons] at hc
        rcases hc with h | h | h <;> first | (subst h; exact b64c_mem _) | simp at h,
      by omega⟩
  | case4 => exact ⟨[], 0, by simp [b64encode], by simp, by omega⟩

theorem stripTildes_append (l1 l2 : List Char) :
    stripTildes (l1 ++ l2) = stripTildes l1 ++ stripTildes l2 :=
  List.filter_append ..

theorem stripTildes_eq_self (l : List Char) (h : '~' ∉ l) : stripTildes l = l := by
  rw [stripTildes, List.filter_eq_self]
  intro c hc
  simp only [bne_iff_ne, ne_eq, decide_eq_true_eq]
  intro heq; exact h (heq ▸ hc)

theorem stripTildes_tildeEvery256F (fuel : Nat) : ∀ l : List Char,
    stripTildes (tildeEvery256F fuel l) = stripTildes l := by
  induction fuel with
  | zero => intro l; rfl
  | succ n ih =>
    intro l
    rw [tildeEvery256F]
    split
    · rw [stripTildes_append]
      have hcons : stripTildes ('~' :: tildeEvery256F n (l.drop 256)) =
          stripTildes (tildeEvery256F n (l.drop 256)) := by
        simp [stripTildes]
      rw [hcons, ih, ← stripTildes_append, List.take_append_drop]
    · rfl

theorem stripTildes_tildeEvery256 (l : List Char) :
    stripTildes (tildeEvery256 l) = stripTildes l :=
  stripTildes_tildeEvery256F l.length l

theorem stripTildes_chunkifyRun (l : List Char) :
    stripTildes (chunkifyRun l) = stripTildes l := by
  rw [chunkifyRun]
  split
  · exact stripTildes_tildeEvery256 l
  · rfl

theorem stripTildes_insertTildesF (fuel : Nat) : ∀ s : List Char,
    s.length ≤ fuel → '~' ∉ s → stripTildes (insertTildesF fuel s) = s := by
  induction fuel with
  | zero =>
    intro s hlen h
    have : s = [] := List.length_eq_zero.1 (Nat.le_zero.1 hlen)
    subst this; rfl
  | succ n ih =>
    intro s hlen h
    match s with
    | [] => rfl
    | c :: rest =>
      rw [insertTildesF]
      split
      · rw [stripTildes_append, stripTildes_chunkifyRun]
        have hsub : ∀ x ∈ rest.dropWhile isWordChar, x ∈ c :: rest := fun x hx =>
          List.mem_cons_of_mem c ((List.dropWhile_sublist _).subset hx)
        have hsub2 : ∀ x ∈ c :: rest.takeWhile isWordChar, x ∈ c :: rest := by
          intro x hx
          rcases List.mem_cons.1 hx with h | h
          · exact h ▸ List.mem_cons_self ..
          · exact List.mem_cons_of_mem c ((List.takeWhile_sublist _).subset h)
        have hdlen : (rest.dropWhile isWordChar).length ≤ n := by
          have := (List.dropWhile_sublist (l := rest) (p := isWordChar)).length_le
          simp only [List.length_cons] at hlen
          omega
        rw [ih _ hdlen (fun hx => h (hsub _ hx)),
          stripTildes_eq_self _ (fun hx => h (hsub2 _ hx))]
        simp [List.takeWhile_append_dropWhile]
      · have hc : c ≠ '~' := fun hc => h (hc ▸ List.mem_cons_self ..)
        have hcons : stripTildes (c :: insertTildesF n rest) =
            c :: stripTildes (insertTildesF n rest) := by
          simp [stripTildes, hc]
        have hrlen : rest.length ≤ n := by
          simp only [List.length_cons] at hlen; omega
        rw [hcons, ih _ hrlen (fun hx => h (List.mem_cons_of_mem c hx))]

theorem stripTildes_insertTildes (s : List Char) (h : '~' ∉ s) :
    stripTildes (insertTildes s) = s :=
  stripTildes_insertTildesF s.length s le_rfl h

theorem mem_tildeEvery256F (fuel : Nat) : ∀ (l : List Char) (c : Char),
    c ∈ tildeEvery256F fuel l → c ∈ l ∨ c = '~' := by
  induction fuel with
  | zero => intro l c h; exact Or.inl h
  | succ n ih =>
    intro l c h
    rw [tildeEvery256F] at h
    split at h
    · rcases List.mem_append.1 h with h | h
      · exact Or.inl (List.take_subset _ _ h)
      · rcases List.mem_cons.1 h with h | h
        · exact Or.inr h
        · rcases ih _ _ h with h | h
          · exact Or.inl (List.drop_subset _ _ h)
          · exact Or.inr h
    · exact Or.inl h

theorem mem_insertTildesF (fuel : Nat) : ∀ (s : List Char) (c : Char),
    c ∈ insertTildesF fuel s → c ∈ s ∨ c = '~' := by
  induction fuel with
  | zero => intro s c h; exact Or.inl h
  | succ n ih =>
    intro s c h
    match s with
    | [] => exact Or.inl h
    | x :: rest =>
      rw [insertTildesF] at h
      split at h
      · rcases List.mem_append.1 h with h | h
        · rw [chunkifyRun] at h
          have hrun : c ∈ x :: rest.takeWhile isWordChar → c ∈ x :: rest := by
            intro hm
            rcases List.mem_cons.1 hm with hm | hm
            · exact hm ▸ List.mem_cons_self ..
            · exact List.mem_cons_of_mem x ((List.takeWhile_sublist _).subset hm)
          split at h
          · rcases mem_tildeEvery256F _ _ _ h with h | h
            · exact Or.inl (hrun h)
            · exact Or.inr h
          · exact Or.inl (hrun h)
        · rcases ih _ _ h with h | h
          · exact Or.inl (List.mem_cons_of_mem x ((List.dropWhile_sublist _).subset h))
          · exact Or.inr h
      · rcases List.mem_cons.1 h with h | h
        · exact Or.inl (h ▸ List.mem_cons_self ..)
        · rcases ih _ _ h with h | h
          · exact Or.inl (List.mem_cons_of_mem x h)
          · exact Or.inr h

theorem mem_insertTildes (s : List Char) (c : Char) (h : c ∈ insertTildes s) :
    c ∈ s ∨ c = '~' :=
  mem_insertTildesF s.length s c h

theorem tailSwapGo_replicate (k : Nat) (r : List Char)
    (hr : r = [] ∨ r.head? ≠ some '=') :
    tailSwapGo (List.replicate k '=' ++ r) = List.replicate k '.' ++ r := by
  induction k with
  | zero =>
    simp only [List.replicate, List.nil_append]
    rcases hr with h | h
    · subst h; rfl
    · cases r with
      | nil => rfl
      | cons c r' =>
        have : c ≠ '=' := by simpa using h
        simp [tailSwapGo, this]
  | succ n ih =>
    rw [List.replicate_succ, List.cons_append]
    have hgo : tailSwapGo ('=' :: (List.replicate n '=' ++ r)) =
        '.' :: tailSwapGo (List.replicate n '=' ++ r) := by
      simp [tailSwapGo]
    rw [hgo, ih, List.replicate_succ, List.cons_append]

theorem replaceTrailingEq_core (core : List Char) (k : Nat) (h : '=' ∉ core) :
    replaceTrailingEq (core ++ List.replicate k '=') = core ++ List.replicate k '.' := by
  rw [replaceTrailingEq, List.reverse_append, List.reverse_replicate]
  rw [tailSwapGo_replicate]
  · rw [List.reverse_append, List.reverse_reverse, List.reverse_replicate]
  · cases hc : core.reverse with
    | nil => exact Or.inl rfl
    | cons c r =>
      right
      simp only [List.head?, ne_eq, Option.some.injEq]
      intro heq
      subst heq
      exact h (by
        have : '=' ∈ core.reverse := hc ▸ List.mem_cons_self ..
        exact List.mem_reverse.1 this)

theorem readUint64_writeUint64 (v : Nat) (h : v < 18446744073709551616) :
    readUint64 (writeUint64 v) = v := by
  simp only [writeUint64, readUint64, List.foldl]
  omega

theorem takeWhile_all (p : Char → Bool) (l : List Char) (h : ∀ c ∈ l, p c) :
    l.takeWhile p = l := by
  induction l with
  | nil => rfl
  | cons c tl ih =>
    rw [List.takeWhile_cons, if_pos (h c (List.mem_cons_self ..))]
    rw [ih fun x hx => h x (List.mem_cons_of_mem c hx)]

theorem splitHash_take (base frag : List Char) (h : '#' ∉ base) :
    (base ++ '#' :: frag).takeWhile (· != '#') = base := by
  induction base with
  | nil => simp [List.takeWhile_cons]
  | cons c tl ih =>
    have hc : c ≠ '#' := fun hc => h (hc ▸ List.mem_cons_self ..)
    rw [List.cons_append, List.takeWhile_cons, if_pos (by simpa using hc)]
    rw [ih fun hx => h (List.mem_cons_of_mem c hx)]

theorem splitHash_drop (base frag : List Char) (h : '#' ∉ base) :
    (base ++ '#' :: frag).dropWhile (· != '#') = '#' :: frag := by
  induction base with
  | nil => simp [List.dropWhile_cons]
  | cons c tl ih =>
    have hc : c ≠ '#' := fun hc => h (hc ▸ List.mem_cons_self ..)
    rw [List.cons_append, List.dropWhile_cons, if_pos (by simpa using hc)]
    exact ih fun hx => h (List.mem_cons_of_mem c hx)

/-- The characters of the rendered fragment: alphabet, `=` or `~`. -/
theorem mem_fragment (bs : List Nat) (c : Char)
    (h : c ∈ insertTildes (dotToEq (b64encode bs))) :
    c ∈ b64Alphabet ∨ c = '=' ∨ c = '~' := by
  rcases mem_insertTildes _ _ h with h | h
  · rw [dotToEq] at h
    rcases List.mem_map.1 h with ⟨a, ha, rfl⟩
    obtain ⟨core, k, henc, hcore, -⟩ := b64encode_shape bs
    rw [henc] at ha
    rcases List.mem_append.1 ha with ha | ha
    · have : a ∈ b64Alphabet := hcore a ha
      have hne : a ≠ '.' := fun hd => by
        rw [hd] at this
        exact absurd this (by decide)
      rw [if_neg hne]
      exact Or.inl this
    · have : a = '.' := List.eq_of_mem_replicate ha
      rw [this, if_pos rfl]
      exact Or.inr (Or.inl rfl)
  · exact Or.inr (Or.inr h)

/-- Undoing the transport mangling and base64url-decoding the rendered
fragment recovers the serialized bytes. -/
theorem fragment_roundtrip (bs : List Nat) (h : ∀ b ∈ bs, b < 256) :
    b64decode (replaceTrailingEq (stripTildes
      (insertTildes (dotToEq (b64encode bs))))) = some bs := by
  obtain ⟨core, k, henc, hcore, hk⟩ := b64encode_shape bs
  have hcdot : ∀ c ∈ core, c ≠ '.' := fun c hc hd => by
    have := hcore c hc
    rw [hd] at this
    exact absurd this (by decide)
  have hdot : dotToEq (b64encode bs) = core ++ List.replicate k '=' := by
    rw [henc, dotToEq, List.map_append]
    congr 1
    · conv_rhs => rw [← List.map_id core]
      exact List.map_congr_left fun a ha => if_neg (hcdot a ha)
    · simp
  have hnotilde : '~' ∉ dotToEq (b64encode bs) := by
    rw [hdot]
    intro hmem
    rcases List.mem_append.1 hmem with hm | hm
    · exact absurd (hcore _ hm) (by decide)
    · exact absurd (List.eq_of_mem_replicate hm) (by decide)
  rw [stripTildes_insertTildes _ hnotilde, hdot]
  have hne : '=' ∉ core := fun hm => absurd (hcore _ hm) (by decide)
  rw [replaceTrailingEq_core _ _ hne, ← henc]
  exact b64_roundtrip bs h

theorem KeyPair.derive_privateKey (kp : KeyPair) :
    KeyPair.derive kp.privateKey = kp := rfl

theorem serializeCashlink_bytes_lt (c : Cashlink)
    (hpkb : ∀ b ∈ c.keyPair.privateKey, b < 256)
    (hm : c.messageBytes.length ≤ 255)
    (hmb : ∀ b ∈ c.messageBytes, b < 256)
    (ht : c.theme ≤ 255) :
    ∀ b ∈ serializeCashlink c, b < 256 := by
  intro b hb
  simp only [serializeCashlink, List.mem_append] at hb
  rcases hb with ((hb | hb) | hb) | hb
  · exact hpkb b hb
  · simp only [writeUint64, List.mem_cons] at hb
    rcases hb with h|h|h|h|h|h|h|h|h <;> first | omega | simp at h
  · split at hb
    · rcases List.mem_cons.1 hb with h | h
      · omega
      · exact hmb b h
    · simp at hb
  · split at hb
    · rcases List.mem_cons.1 hb with h | h
      · omega
      · simp at h
    · simp at hb

/-- C1: for every valid cashlink tuple (value < 2^63, message of at most
255 UTF-8 bytes, theme ≤ 255, a base URL without `#`), `parse` applied to
the URL produced by `render` yields the same key pair, value, message
bytes and theme — surviving the `.`→`=` substitution and the `~`
separators which decode strips.  Multi-byte UTF-8 messages, empty
messages and zero themes are instances of the arbitrary byte list and
theme here. -/
theorem render_parse_roundtrip (c : Cashlink)
    (hpk : c.keyPair.privateKey.length = PRIVATE_KEY_SIZE)
    (hpkb : ∀ b ∈ c.keyPair.privateKey, b < 256)
    (hv : c.value < 9223372036854775808)
    (hm : c.messageBytes.length ≤ 255)
    (hmb : ∀ b ∈ c.messageBytes, b < 256)
    (ht : c.theme ≤ 255)
    (hurl : '#' ∉ c.baseUrl) :
    ∃ c', parse (render c) = some c' ∧ c'.keyPair = c.keyPair ∧
      c'.value = c.value ∧ c'.messageBytes = c.messageBytes ∧
      c'.theme = c.theme := by
  have hbs : ∀ b ∈ serializeCashlink c, b < 256 :=
    serializeCashlink_bytes_lt c hpkb hm hmb ht
  set frag := insertTildes (dotToEq (b64encode (serializeCashlink c))) with hfrag
  have hfrag_nohash : '#' ∉ frag := by
    intro hmem
    rcases mem_fragment _ _ hmem with h | h | h
    · exact absurd h (by decide)
    · exact absurd h (by decide)
    · exact absurd h (by decide)
  have hsplit : (render c).dropWhile (· != '#') = '#' :: frag := by
    rw [render, ← hfrag]
    exact splitHash_drop _ _ hurl
  have htake : frag.takeWhile (· != '#') = frag :=
    takeWhile_all _ _ fun ch hch => by
      simp only [bne_iff_ne, ne_eq, decide_eq_true_eq]
      intro heq; exact hfrag_nohash (heq ▸ hch)
  have hdec : b64decode (replaceTrailingEq (stripTildes frag)) =
      some (serializeCashlink c) := fragment_roundtrip _ hbs
  have hw8 : (writeUint64 c.value).length = 8 := by simp [writeUint64]
  have hser : serializeCashlink c = c.keyPair.privateKey ++
      (writeUint64 c.value ++
        ((if c.messageBytes.length ≠ 0 ∨ c.theme ≠ 0 then
          c.messageBytes.length :: c.messageBytes else []) ++
        (if c.theme ≠ 0 then [c.theme] else []))) := by
    rw [serializeCashlink, List.append_assoc, List.append_assoc]
  have hlen : ¬ (serializeCashlink c).length < PRIVATE_KEY_SIZE + 8 := by
    rw [hser]
    simp only [List.length_append, hpk, hw8]
    omega
  have htake32 : (serializeCashlink c).take PRIVATE_KEY_SIZE =
      c.keyPair.privateKey := by
    rw [hser]; exact List.take_left' hpk
  have hdrop32 : (serializeCashlink c).drop PRIVATE_KEY_SIZE =
      writeUint64 c.value ++
        ((if c.messageBytes.length ≠ 0 ∨ c.theme ≠ 0 then
          c.messageBytes.length :: c.messageBytes else []) ++
        (if c.theme ≠ 0 then [c.theme] else [])) := by
    rw [hser]; exact List.drop_left' hpk
  have htake8 : ((serializeCashlink c).drop PRIVATE_KEY_SIZE).take 8 =
      writeUint64 c.value := by
    rw [hdrop32]; exact List.take_left' hw8
  have hdrop40 : (serializeCashlink c).drop (PRIVATE_KEY_SIZE + 8) =
      (if c.messageBytes.length ≠ 0 ∨ c.theme ≠ 0 then
        c.messageBytes.length :: c.messageBytes else []) ++
      (if c.theme ≠ 0 then [c.theme] else []) := by
    rw [← List.drop_drop, hdrop32]
    exact List.drop_left' hw8
  have hval : readUint64 ((serializeCashlink c).drop PRIVATE_KEY_SIZE |>.take 8) =
      c.value := by
    rw [htake8]
    exact readUint64_writeUint64 _ (by omega)
  -- now evaluate `parse`
  rw [parse]
  simp only [hsplit, htake, hdec, hlen, if_false, htake32, hval, hdrop40]
  by_cases hopt : c.messageBytes.length ≠ 0 ∨ c.theme ≠ 0
  · rw [if_pos hopt]
    by_cases hth : c.theme ≠ 0
    · rw [if_pos hth]
      refine ⟨_, rfl, ?_, rfl, ?_, ?_⟩
      · exact KeyPair.derive_privateKey _
      · simp [List.take_left' (rfl : c.messageBytes.length = c.messageBytes.length)]
      · simp [List.drop_left' (rfl : c.messageBytes.length = c.messageBytes.length)]
    · rw [if_neg hth, List.append_nil]
      refine ⟨_, rfl, ?_, rfl, ?_, ?_⟩
      · exact KeyPair.derive_privateKey _
      · simp
      · simp
        omega
  · rw [if_neg hopt]
    push_neg at hopt
    obtain ⟨hm0, hth0⟩ := hopt
    rw [if_neg (by simpa using hth0), List.append_nil]
    refine ⟨_, rfl, ?_, rfl, ?_, ?_⟩
    · exact KeyPair.derive_privateKey _
    · simpa using (List.length_eq_zero.1 hm0).symm
    · simpa using hth0.symm

theorem render_parse_roundtrip_witness :
    (cEx.keyPair.privateKey.length = PRIVATE_KEY_SIZE ∧
      (∀ b ∈ cEx.keyPair.privateKey, b < 256) ∧
      cEx.value < 9223372036854775808 ∧
      cEx.messageBytes.length ≤ 255 ∧
      (∀ b ∈ cEx.messageBytes, b < 256) ∧
      cEx.theme ≤ 255 ∧ '#' ∉ cEx.baseUrl) ∧
    ∃ c', parse (render cEx) = some c' ∧ c'.keyPair = cEx.keyPair ∧
      c'.value = cEx.value ∧ c'.messageBytes = cEx.messageBytes ∧
      c'.theme = cEx.theme :=
  ⟨by decide, render_parse_roundtrip cEx (by decide) (by decide) (by decide)
    (by decide) (by decide) (by decide) (by decide)⟩

theorem b64encode_length_aux : ∀ (n : Nat) (bs : List Nat), bs.length ≤ n →
    (b64encode bs).length = 4 * ((bs.length + 2) / 3) := by
  intro n
  induction n with
  | zero =>
    intro bs hle
    have hnil : bs = [] := List.eq_nil_of_length_eq_zero (by omega)
    subst hnil
    rfl
  | succ n ih =>
    intro bs hle
    rcases bs with - | ⟨b1, - | ⟨b2, - | ⟨b3, rest⟩⟩⟩
    · rfl
    · simp [b64encode]
    · simp [b64encode]
    · simp only [b64encode, List.length_cons]
      rw [ih rest (by simp only [List.length_cons] at hle; omega)]
      omega

theorem b64encode_length (bs : List Nat) :
    (b64encode bs).length = 4 * ((bs.length + 2) / 3) :=
  b64encode_length_aux bs.length bs (le_refl _)

/-- A token cut from the base64url encoding of
`Math.ceil(tokenLength * 6 / 8)` random bytes has exactly the configured
length. -/
theorem tokenFromBytes_length (tokenLength : Nat) (r : List Nat)
    (hr : r.length = randomBytesLen tokenLength) :
    (tokenFromBytes tokenLength r).length = tokenLength := by
  rw [tokenFromBytes, List.length_take, b64encode_length, hr, randomBytesLen,
    tokenEntropy]
  omega

theorem createCashlinksLoop_spec (blake2b : List Nat → List Nat)
    (count tokenLength : Nat) (salt : List Nat) (baseUrl : List Char)
    (value : Nat) (messageBytes : List Nat) (theme : Nat) :
    ∀ (randomness : List (List Nat)) (acc m : List (List Char × Cashlink)),
      (∀ r ∈ randomness, r.length = randomBytesLen tokenLength) →
      (acc.map Prod.fst).Nodup → acc.length ≤ count →
      (∀ p ∈ acc, GoodEntry blake2b salt baseUrl value messageBytes theme p) →
      (∀ p ∈ acc, p.1.length = tokenLength) →
      createCashlinksLoop blake2b count tokenLength salt baseUrl value
        messageBytes theme randomness acc = some m →
      m.length = count ∧ (m.map Prod.fst).Nodup ∧
        (∀ p ∈ m, GoodEntry blake2b salt baseUrl value messageBytes theme p) ∧
        (∀ p ∈ m, p.1.length = tokenLength) := by
  intro randomness
  induction randomness with
  | nil =>
    intro acc m hrand hnd hle hgood hlen hm
    rw [createCashlinksLoop] at hm
    split at hm
    · rename_i hcount
      cases hm
      exact ⟨le_antisymm hle hcount, hnd, hgood, hlen⟩
    · exact absurd hm (by simp)
  | cons randomBytes rest ih =>
    intro acc m hrand hnd hle hgood hlen hm
    rw [createCashlinksLoop] at hm
    split at hm
    · rename_i hcount
      cases hm
      exact ⟨le_antisymm hle hcount, hnd, hgood, hlen⟩
    · rename_i hcount
      simp only at hm
      have hrand' : ∀ r ∈ rest, r.length = randomBytesLen tokenLength :=
        fun r hr => hrand r (List.mem_cons_of_mem _ hr)
      split at hm
      · exact ih acc m hrand' hnd hle hgood hlen hm
      · rename_i htok
        split at hm
        · exact absurd hm (by simp)
        · rename_i tokenBytes hdecode
          refine ih _ m hrand' ?_ ?_ ?_ ?_ hm
          · rw [List.map_append, List.nodup_append]
            refine ⟨hnd, by simp, ?_⟩
            intro t ht
            simp only [List.map_cons, List.map_nil, List.mem_singleton]
            intro heq
            exact htok (heq ▸ ht)
          · rw [List.length_append]
            simp only [List.length_singleton]
            omega
          · intro p hp
            rcases List.mem_append.1 hp with hp | hp
            · exact hgood p hp
            · rcases List.mem_singleton.1 hp with rfl
              exact ⟨tokenBytes, hdecode, rfl⟩
          · intro p hp
            rcases List.mem_append.1 hp with hp | hp
            · exact hlen p hp
            · rcases List.mem_singleton.1 hp with rfl
              exact tokenFromBytes_length tokenLength randomBytes
                (hrand randomBytes (List.mem_cons_self ..))

/-- C6: whenever `createCashlinks` returns a batch (the random stream
sufficed), the batch has exactly `count` entries, their tokens are
pairwise distinct (colliding candidates were discarded, never
overwriting an entry) and each has exactly the configured length —
every candidate is cut from the base64url encoding of the
`Math.ceil(tokenLength * 6 / 8)` bytes `crypto.randomBytes` returns —
and every entry's key pair is derived from the Blake2b hash of its
token's raw bytes concatenated with the secret salt, so the key pair is
a function of the (token, salt) pair alone. -/
theorem createCashlinks_spec (blake2b : List Nat → List Nat)
    (count tokenLength : Nat) (salt : List Nat) (baseUrl : List Char)
    (value : Nat) (messageBytes : List Nat) (theme : Nat)
    (randomness : List (List Nat))
    (hrand : ∀ r ∈ randomness, r.length = randomBytesLen tokenLength)
    (m : List (List Char × Cashlink))
    (h : createCashlinks blake2b count tokenLength salt baseUrl value
      messageBytes theme randomness = some m) :
    m.length = count ∧ (m.map Prod.fst).Nodup ∧
      ∀ p ∈ m, p.1.length = tokenLength ∧
        ∃ tb, b64decodeLoose p.1 = some tb ∧
        p.2.keyPair = KeyPair.derive (blake2b (tb ++ salt)) ∧
        p.2.value = value ∧ p.2.messageBytes = messageBytes ∧
        p.2.theme = theme ∧ p.2.baseUrl = baseUrl := by
  obtain ⟨hlen, hnd, hgood, htlen⟩ := createCashlinksLoop_spec blake2b count
    tokenLength salt baseUrl value messageBytes theme randomness [] m hrand
    (by simp) (by simp) (by simp) (by simp) h
  refine ⟨hlen, hnd, ?_⟩
  intro p hp
  obtain ⟨tb, hdec, hcl⟩ := hgood p hp
  exact ⟨htlen p hp, tb, hdec, by rw [hcl]; exact ⟨rfl, rfl, rfl, rfl, rfl⟩⟩

theorem createCashlinks_spec_witness :
    (createCashlinks blakeEx 2 3 [7] ['u','r','l'] 5 [] 0
      [[0,1,2],[0,1,2],[4,5,6]] = some mEx) ∧
    (mEx.length = 2 ∧ (mEx.map Prod.fst).Nodup ∧
      ∀ p ∈ mEx, p.1.length = 3 ∧
        ∃ tb, b64decodeLoose p.1 = some tb ∧
        p.2.keyPair = KeyPair.derive (blakeEx (tb ++ [7])) ∧
        p.2.value = 5 ∧ p.2.messageBytes = [] ∧
        p.2.theme = 0 ∧ p.2.baseUrl = ['u','r','l']) :=
  ⟨by rfl, createCashlinks_spec blakeEx 2 3 [7] ['u','r','l'] 5 [] 0
    [[0,1,2],[0,1,2],[4,5,6]] (by decide) mEx (by rfl)⟩

/-- C7 (code bug): importing the record exported for `c7Ex` reconstructs
the key pair, value and message, but the theme comes back as 0 instead
of 5 — `importCashlinks` never reads the theme byte that `render`
embedded in the URL, contradicting the contract that the full Cashlink
including its theme is reconstructed from `cashlinkUrl` via the codec. -/
theorem importRecord_exportRecord_drops_theme :
    importRecord (exportRecord ['t'] [] [] c7Ex) =
      some { baseUrl := c7Ex.baseUrl, keyPair := c7Ex.keyPair,
             value := c7Ex.value, messageBytes := c7Ex.messageBytes,
             theme := 0 } ∧
    c7Ex.theme = 5 := by
  constructor
  · rfl
  · rfl

/-- C8, counterexample: in the TypeScript `createStatistics`, the second
fetch is initiated at the same instant as the first — not after a pacing
delay of `60000 / perMinuteRateLimit + 30` milliseconds (2030 ms at a
rate limit of 30 per minute, and positive at every rate). -/
theorem tsStats_initiations_not_paced :
    initTime tsStatsDelay 1 = initTime tsStatsDelay 0 ∧
    throttleDelay 30 = 2030 ∧
    initTime tsStatsDelay 1 ≠ initTime tsStatsDelay 0 + throttleDelay 30 := by
  refine ⟨rfl, rfl, ?_⟩
  decide

/-- C8, amended: in the JS revision of `createStatistics`, every fetch
except the last is followed by the pacing delay (when fetch `i` is not
the last, at most `i + 1 ≤ n - 1 < n` fetches have completed, so the
`processed < cashlinks.size` guard holds), hence successive initiations
are exactly `60000 / rate + 30` ms apart; the TypeScript revision
initiates all fetches back to back with no delay. -/
theorem statistics_pacing (n rate : Nat) (processedAt : Nat → Nat) (i : Nat)
    (hlast : i + 1 < n) (hproc : processedAt i ≤ i + 1) :
    initTime (jsStatsDelay n rate processedAt) (i + 1) =
      initTime (jsStatsDelay n rate processedAt) i + throttleDelay rate ∧
    initTime tsStatsDelay (i + 1) = initTime tsStatsDelay i := by
  constructor
  · rw [initTime, jsStatsDelay, if_pos (by omega)]
  · rw [initTime, tsStatsDelay, Nat.add_zero]

theorem statistics_pacing_witness :
    (0 + 1 < 3 ∧ (fun _ : Nat => 0) 0 ≤ 0 + 1) ∧
    (initTime (jsStatsDelay 3 30 (fun _ => 0)) 1 =
      initTime (jsStatsDelay 3 30 (fun _ => 0)) 0 + throttleDelay 30 ∧
     initTime tsStatsDelay 1 = initTime tsStatsDelay 0) :=
  ⟨by decide, statistics_pacing 3 30 (fun _ => 0) 0 (by decide) (by decide)⟩

theorem sendLoop_spec (oracle : Nat → Bool) : ∀ fuel k n,
    (sendTransactionUntilSuccess oracle fuel k).2 = some n →
    oracle n = true ∧ k ≤ n ∧ (∀ m, k ≤ m → m < n → oracle m = false) ∧
    (sendTransactionUntilSuccess oracle fuel k).1 =
      (List.replicate (n - k) [SendEvent.attemptFail, SendEvent.delay 60000]).flatten
        ++ [SendEvent.attemptOk] := by
  intro fuel
  induction fuel with
  | zero => intro k n h; exact absurd h (by simp [sendTransactionUntilSuccess])
  | succ f ih =>
    intro k n h
    by_cases hk : oracle k = true
    · rw [sendTransactionUntilSuccess, if_pos hk] at h
      simp only [Option.some.injEq] at h
      subst h
      refine ⟨hk, le_rfl, fun m h1 h2 => absurd h1 (by omega), ?_⟩
      rw [sendTransactionUntilSuccess, if_pos hk]
      simp
    · rw [sendTransactionUntilSuccess, if_neg hk] at h
      simp only at h
      obtain ⟨hn, hkn, hmid, htrace⟩ := ih (k + 1) n h
      have hrep : n - k = (n - (k + 1)) + 1 := by omega
      refine ⟨hn, by omega, ?_, ?_⟩
      · intro m h1 h2
        rcases Nat.eq_or_lt_of_le h1 with rfl | h1'
        · simpa using hk
        · exact hmid m h1' h2
      · rw [sendTransactionUntilSuccess, if_neg hk]
        simp only [htrace, hrep, List.replicate_succ, List.flatten_cons]
        rfl

theorem count_failDelay_flatten (j : Nat) :
    ((List.replicate j [SendEvent.attemptFail, SendEvent.delay 60000]).flatten).count
        SendEvent.attemptOk = 0 ∧
    ((List.replicate j [SendEvent.attemptFail, SendEvent.delay 60000]).flatten).count
        SendEvent.attemptFail = j := by
  induction j with
  | zero => simp
  | succ m ih =>
    simp only [List.replicate_succ, List.flatten_cons, List.count_append, ih]
    refine ⟨by rfl, ?_⟩
    rw [show ([SendEvent.attemptFail, SendEvent.delay 60000]).count
      SendEvent.attemptFail = 1 from rfl]
    omega

theorem sendLoop_never_resolves (oracle : Nat → Bool)
    (hfail : ∀ m, oracle m = false) : ∀ fuel k,
    (sendTransactionUntilSuccess oracle fuel k).2 = none := by
  intro fuel
  induction fuel with
  | zero => intro k; rfl
  | succ f ih =>
    intro k
    rw [sendTransactionUntilSuccess, if_neg (by simp [hfail])]
    exact ih (k + 1)

/-- C4: a `sendTransaction` failure is never a terminal outcome of
`broadcastTransaction` — the same transaction is retried after a fixed
60000 ms delay, each failure logged, until an attempt succeeds, at which
point exactly one successful send is recorded; the broadcast promise
(and hence `awaitPendingBroadcasts`) resolves only at the first
successful attempt, and with a permanently failing node it never
resolves (and never errors).  In particular, failing attempts `k` and
`k+1` and succeeding at `k+2` gives two logged failures, two 60 s waits,
one recorded success, and resolution only after the third attempt. -/
theorem broadcastTransaction_retry_spec (oracle : Nat → Bool)
    (fuel k n : Nat)
    (hres : (sendTransactionUntilSuccess oracle fuel k).2 = some n) :
    (oracle n = true ∧ k ≤ n ∧ ∀ m, k ≤ m → m < n → oracle m = false) ∧
    (sendTransactionUntilSuccess oracle fuel k).1 =
      (List.replicate (n - k) [SendEvent.attemptFail, SendEvent.delay 60000]).flatten
        ++ [SendEvent.attemptOk] ∧
    (sendTransactionUntilSuccess oracle fuel k).1.count SendEvent.attemptOk = 1 ∧
    (sendTransactionUntilSuccess oracle fuel k).1.count SendEvent.attemptFail = n - k ∧
    awaitPendingBroadcasts [(sendTransactionUntilSuccess oracle fuel k).2] = true ∧
    (∀ oracle' : Nat → Bool, (∀ m, oracle' m = false) → ∀ fuel' k',
      (sendTransactionUntilSuccess oracle' fuel' k').2 = none ∧
      awaitPendingBroadcasts [(sendTransactionUntilSuccess oracle' fuel' k').2] = false) := by
  obtain ⟨hn, hkn, hmid, htrace⟩ := sendLoop_spec oracle fuel k n hres
  obtain ⟨hok, hfailc⟩ := count_failDelay_flatten (n - k)
  refine ⟨⟨hn, hkn, hmid⟩, htrace, ?_, ?_, ?_, ?_⟩
  · rw [htrace, List.count_append, hok]
    rfl
  · rw [htrace, List.count_append, hfailc]
    rfl
  · rw [hres]
    rfl
  · intro oracle' hfail fuel' k'
    have hnone := sendLoop_never_resolves oracle' hfail fuel' k'
    exact ⟨hnone, by rw [hnone]; rfl⟩

theorem broadcastTransaction_retry_spec_witness :
    ((sendTransactionUntilSuccess oracleEx 5 0).2 = some 2) ∧
    ((oracleEx 2 = true ∧ 0 ≤ 2 ∧ ∀ m, 0 ≤ m → m < 2 → oracleEx m = false) ∧
     (sendTransactionUntilSuccess oracleEx 5 0).1 =
       (List.replicate (2 - 0) [SendEvent.attemptFail, SendEvent.delay 60000]).flatten
         ++ [SendEvent.attemptOk] ∧
     (sendTransactionUntilSuccess oracleEx 5 0).1.count SendEvent.attemptOk = 1 ∧
     (sendTransactionUntilSuccess oracleEx 5 0).1.count SendEvent.attemptFail = 2 - 0 ∧
     awaitPendingBroadcasts [(sendTransactionUntilSuccess oracleEx 5 0).2] = true ∧
     (∀ oracle' : Nat → Bool, (∀ m, oracle' m = false) → ∀ fuel' k',
       (sendTransactionUntilSuccess oracle' fuel' k').2 = none ∧
       awaitPendingBroadcasts [(sendTransactionUntilSuccess oracle' fuel' k').2] = false)) :=
  ⟨by rfl, broadcastTransaction_retry_spec oracleEx 5 0 2 (by rfl)⟩

theorem alookup_aset_self {α : Type} (k : Nat) (v : α) (m : List (Nat × α)) :
    alookup k (aset k v m) = some v := by
  induction m with
  | nil => simp [aset, alookup]
  | cons p rest ih =>
    obtain ⟨k', v'⟩ := p
    rw [aset]
    by_cases h : k' = k
    · rw [if_pos h, alookup, if_pos h]
    · rw [if_neg h, alookup, if_neg h, ih]

theorem alookup_aset_ne {α : Type} (k k' : Nat) (v : α) (m : List (Nat × α))
    (hne : k' ≠ k) : alookup k' (aset k v m) = alookup k' m := by
  induction m with
  | nil =>
    simp only [aset, alookup]
    rw [if_neg (fun h => hne h.symm)]
  | cons p rest ih =>
    obtain ⟨k'', v''⟩ := p
    rw [aset]
    by_cases h : k'' = k
    · rw [if_pos h, alookup, alookup, if_neg (by omega), if_neg (by omega)]
    · rw [if_neg h, alookup, alookup]
      by_cases h2 : k'' = k'
      · rw [if_pos h2, if_pos h2]
      · rw [if_neg h2, if_neg h2, ih]

theorem mem_of_alookup_eq_some {α : Type} (k : Nat) (v : α) (m : List (Nat × α))
    (h : alookup k m = some v) : (k, v) ∈ m := by
  induction m with
  | nil => simp [alookup] at h
  | cons p rest ih =>
    obtain ⟨k', v'⟩ := p
    rw [alookup] at h
    split at h
    · rename_i heq
      cases heq
      cases h
      exact List.mem_cons_self ..
    · exact List.mem_cons_of_mem _ (ih h)

theorem alookup_aerase_self {α : Type} (k : Nat) (m : List (Nat × α))
    (hnd : (m.map Prod.fst).Nodup) : alookup k (aerase k m) = none := by
  induction m with
  | nil => rfl
  | cons p rest ih =>
    obtain ⟨k', v'⟩ := p
    simp only [List.map_cons, List.nodup_cons] at hnd
    rw [aerase]
    by_cases h : k' = k
    · subst h
      rw [if_pos rfl]
      cases hlk : alookup k' rest with
      | none => rfl
      | some v =>
        exact absurd (List.mem_map_of_mem Prod.fst
          (mem_of_alookup_eq_some k' v rest hlk)) hnd.1
    · rw [if_neg h, alookup, if_neg h, ih hnd.2]

theorem alookup_aerase_ne {α : Type} (k k' : Nat) (m : List (Nat × α))
    (hne : k' ≠ k) : alookup k' (aerase k m) = alookup k' m := by
  induction m with
  | nil => rfl
  | cons p rest ih =>
    obtain ⟨k'', v''⟩ := p
    rw [aerase]
    by_cases h : k'' = k
    · rw [if_pos h, alookup, if_neg (by omega)]
    · rw [if_neg h, alookup, alookup]
      by_cases h2 : k'' = k'
      · rw [if_pos h2, if_pos h2]
      · rw [if_neg h2, if_neg h2, ih]

theorem alookup_eq_some_of_mem {α : Type} (k : Nat) (v : α) (m : List (Nat × α))
    (hnd : (m.map Prod.fst).Nodup) (hmem : (k, v) ∈ m) : alookup k m = some v := by
  induction m with
  | nil => simp at hmem
  | cons p rest ih =>
    obtain ⟨k', v'⟩ := p
    simp only [List.map_cons, List.nodup_cons] at hnd
    rcases List.mem_cons.1 hmem with heq | hmem'
    · cases heq
      rw [alookup, if_pos rfl]
    · rw [alookup]
      by_cases h : k' = k
      · subst h
        exact absurd (List.mem_map_of_mem Prod.fst hmem') hnd.1
      · rw [if_neg h]
        exact ih hnd.2 hmem'

theorem keys_aset {α : Type} (k : Nat) (v : α) (m : List (Nat × α)) :
    (aset k v m).map Prod.fst =
      if k ∈ m.map Prod.fst then m.map Prod.fst else m.map Prod.fst ++ [k] := by
  induction m with
  | nil => simp [aset]
  | cons p rest ih =>
    obtain ⟨k', v'⟩ := p
    rw [aset]
    by_cases h : k' = k
    · subst h
      simp
    · rw [if_neg h]
      simp only [List.map_cons]
      rw [ih]
      by_cases hk : k ∈ rest.map Prod.fst
      · rw [if_pos hk, if_pos (List.mem_cons_of_mem _ hk)]
      · rw [if_neg hk, if_neg (by
          intro hc
          rcases List.mem_cons.1 hc with hc | hc
          · exact h hc.symm
          · exact hk hc)]
        rfl

theorem nodup_keys_aset {α : Type} (k : Nat) (v : α) (m : List (Nat × α))
    (hnd : (m.map Prod.fst).Nodup) : ((aset k v m).map Prod.fst).Nodup := by
  rw [keys_aset]
  split
  · exact hnd
  · rename_i hk
    exact hnd.append (List.nodup_singleton _)
      (fun a ha hb => hk ((List.mem_singleton.1 hb) ▸ ha))

theorem keys_aerase_sublist {α : Type} (k : Nat) (m : List (Nat × α)) :
    ((aerase k m).map Prod.fst).Sublist (m.map Prod.fst) := by
  induction m with
  | nil => simp [aerase]
  | cons p rest ih =>
    obtain ⟨k', v'⟩ := p
    rw [aerase]
    by_cases h : k' = k
    · rw [if_pos h]
      simp only [List.map_cons]
      exact (List.sublist_cons_self _ _)
    · rw [if_neg h]
      simp only [List.map_cons]
      exact ih.cons₂ k'

theorem nodup_keys_aerase {α : Type} (k : Nat) (m : List (Nat × α))
    (hnd : (m.map Prod.fst).Nodup) : ((aerase k m).map Prod.fst).Nodup :=
  hnd.sublist (keys_aerase_sublist k m)

theorem mem_aset_iff {α : Type} (k : Nat) (v : α) (m : List (Nat × α))
    (hnd : (m.map Prod.fst).Nodup) (x : Nat) (y : α) :
    (x, y) ∈ aset k v m ↔ (x = k ∧ y = v) ∨ ((x, y) ∈ m ∧ x ≠ k) := by
  induction m with
  | nil =>
    simp only [aset, List.mem_singleton, Prod.mk.injEq, List.not_mem_nil,
      false_and, or_false]
  | cons p rest ih =>
    obtain ⟨k', v'⟩ := p
    simp only [List.map_cons, List.nodup_cons] at hnd
    rw [aset]
    by_cases h : k' = k
    · subst h
      rw [if_pos rfl]
      constructor
      · intro hm
        rcases List.mem_cons.1 hm with heq | hm'
        · cases heq
          exact Or.inl ⟨rfl, rfl⟩
        · refine Or.inr ⟨List.mem_cons_of_mem _ hm', ?_⟩
          intro hx
          subst hx
          exact hnd.1 (List.mem_map_of_mem Prod.fst hm')
      · intro hm
        rcases hm with ⟨rfl, rfl⟩ | ⟨hm', hx⟩
        · exact List.mem_cons_self ..
        · rcases List.mem_cons.1 hm' with heq | hm''
          · cases heq
            exact absurd rfl hx
          · exact List.mem_cons_of_mem _ hm''
    · rw [if_neg h]
      constructor
      · intro hm
        rcases List.mem_cons.1 hm with heq | hm'
        · cases heq
          exact Or.inr ⟨List.mem_cons_self .., fun hc => h hc⟩
        · rcases (ih hnd.2).1 hm' with hc | ⟨hc, hx⟩
          · exact Or.inl hc
          · exact Or.inr ⟨List.mem_cons_of_mem _ hc, hx⟩
      · intro hm
        rcases hm with ⟨rfl, rfl⟩ | ⟨hm', hx⟩
        · exact List.mem_cons_of_mem _ ((ih hnd.2).2 (Or.inl ⟨rfl, rfl⟩))
        · rcases List.mem_cons.1 hm' with heq | hm''
          · cases heq
            exact List.mem_cons_self ..
          · exact List.mem_cons_of_mem _ ((ih hnd.2).2 (Or.inr ⟨hm'', hx⟩))

theorem mem_aerase_iff {α : Type} (k : Nat) (m : List (Nat × α))
    (hnd : (m.map Prod.fst).Nodup) (x : Nat) (y : α) :
    (x, y) ∈ aerase k m ↔ (x, y) ∈ m ∧ x ≠ k := by
  induction m with
  | nil => simp [aerase]
  | cons p rest ih =>
    obtain ⟨k', v'⟩ := p
    simp only [List.map_cons, List.nodup_cons] at hnd
    rw [aerase]
    by_cases h : k' = k
    · subst h
      rw [if_pos rfl]
      constructor
      · intro hm
        refine ⟨List.mem_cons_of_mem _ hm, ?_⟩
        intro hx
        subst hx
        exact hnd.1 (List.mem_map_of_mem Prod.fst hm)
      · rintro ⟨hm, hx⟩
        rcases List.mem_cons.1 hm with heq | hm'
        · cases heq
          exact absurd rfl hx
        · exact hm'
    · rw [if_neg h]
      constructor
      · intro hm
        rcases List.mem_cons.1 hm with heq | hm'
        · cases heq
          exact ⟨List.mem_cons_self .., fun hc => h hc⟩
        · obtain ⟨hm'', hx⟩ := (ih hnd.2).1 hm'
          exact ⟨List.mem_cons_of_mem _ hm'', hx⟩
      · rintro ⟨hm, hx⟩
        rcases List.mem_cons.1 hm with heq | hm'
        · cases heq
          exact List.mem_cons_self ..
        · exact List.mem_cons_of_mem _ ((ih hnd.2).2 ⟨hm', hx⟩)

theorem alookup_ne_none_of_mem {α : Type} (k : Nat) (v : α) (m : List (Nat × α))
    (hmem : (k, v) ∈ m) : alookup k m ≠ none := by
  induction m with
  | nil => simp at hmem
  | cons p rest ih =>
    obtain ⟨k', v'⟩ := p
    rw [alookup]
    by_cases hk : k' = k
    · rw [if_pos hk]
      simp
    · rw [if_neg hk]
      rcases List.mem_cons.1 hmem with heq | hm'
      · cases heq
        exact absurd rfl hk
      · exact ih hm'

theorem not_mem_rev_of_alookup_none (s : MpState) (h : Nat)
    (hfresh : alookup h s.rev = none) : ∀ a, (h, a) ∉ s.rev :=
  fun a hmem => alookup_ne_none_of_mem h a s.rev hmem hfresh

theorem MpInv_empty : MpInv MpState.empty := by
  refine ⟨by simp [MpState.empty], by simp [MpState.empty],
    by simp [MpState.empty], ?_⟩
  intro h a
  simp [MpState.empty]

theorem MpInv_add (h a : Nat) (s : MpState) (hfresh : alookup h s.rev = none)
    (hinv : MpInv s) : MpInv (addMempoolTransaction h a s) := by
  obtain ⟨hnd1, hnd2, hsets, hiff⟩ := hinv
  have hnotin : ∀ x, (h, x) ∉ s.rev := not_mem_rev_of_alookup_none s h hfresh
  have hS0 : h ∉ (alookup a s.mpTx).getD [] := by
    intro hmem
    cases hl : alookup a s.mpTx with
    | none => rw [hl] at hmem; simp at hmem
    | some S =>
      rw [hl] at hmem
      exact hnotin a ((hiff h a).2 ⟨S, mem_of_alookup_eq_some a S s.mpTx hl, hmem⟩)
  have hsadd : sadd h ((alookup a s.mpTx).getD []) =
      (alookup a s.mpTx).getD [] ++ [h] := by
    rw [sadd, if_neg hS0]
  refine ⟨nodup_keys_aset _ _ _ hnd1, nodup_keys_aset _ _ _ hnd2, ?_, ?_⟩
  · intro p hp
    rw [show (addMempoolTransaction h a s).mpTx =
      aset a (sadd h ((alookup a s.mpTx).getD [])) s.mpTx from rfl] at hp
    rw [← Prod.mk.eta (p := p)] at hp
    rcases (mem_aset_iff a _ s.mpTx hnd1 p.1 p.2).1 hp with ⟨hp1, hp2⟩ | ⟨hp1, hp2⟩
    · rw [hp2, hsadd]
      constructor
      · simp
      · cases hl : alookup a s.mpTx with
        | none => simp [hl]
        | some S =>
          have hmemS := mem_of_alookup_eq_some a S s.mpTx hl
          have hSnd := hsets _ hmemS
          simp only [hl, Option.getD_some]
          rw [List.nodup_append]
          refine ⟨hSnd.2, List.nodup_singleton _, ?_⟩
          intro x hx hx'
          rw [List.mem_singleton] at hx'
          subst hx'
          exact hS0 (by rw [hl]; exact hx)
    · exact hsets _ hp1
  · intro h' a'
    rw [show (addMempoolTransaction h a s).rev = aset h a s.rev from rfl,
      show (addMempoolTransaction h a s).mpTx =
        aset a (sadd h ((alookup a s.mpTx).getD [])) s.mpTx from rfl]
    rw [mem_aset_iff h a s.rev hnd2 h' a']
    constructor
    · rintro (⟨rfl, rfl⟩ | ⟨hmem, hne⟩)
      · refine ⟨sadd h' ((alookup a' s.mpTx).getD []), ?_, ?_⟩
        · exact (mem_aset_iff a' _ s.mpTx hnd1 a' _).2 (Or.inl ⟨rfl, rfl⟩)
        · rw [hsadd]
          simp
      · obtain ⟨S', hS', hmemS'⟩ := (hiff h' a').1 hmem
        by_cases ha : a' = a
        · subst ha
          have hl : alookup a' s.mpTx = some S' :=
            alookup_eq_some_of_mem a' S' s.mpTx hnd1 hS'
          refine ⟨sadd h ((alookup a' s.mpTx).getD []), ?_, ?_⟩
          · exact (mem_aset_iff a' _ s.mpTx hnd1 a' _).2 (Or.inl ⟨rfl, rfl⟩)
          · rw [hsadd, hl]
            simp only [Option.getD_some]
            exact List.mem_append_left _ hmemS'
        · exact ⟨S', (mem_aset_iff a _ s.mpTx hnd1 a' S').2
            (Or.inr ⟨hS', ha⟩), hmemS'⟩
    · rintro ⟨S, hS, hmemS⟩
      rcases (mem_aset_iff a _ s.mpTx hnd1 a' S).1 hS with ⟨rfl, rfl⟩ | ⟨hS', hne⟩
      · rw [hsadd] at hmemS
        rcases List.mem_append.1 hmemS with hmem1 | hmem1
        · refine Or.inr ⟨(hiff h' a').2 ?_, ?_⟩
          · cases hl : alookup a' s.mpTx with
            | none => rw [hl] at hmem1; simp at hmem1
            | some S0 =>
              rw [hl] at hmem1
              exact ⟨S0, mem_of_alookup_eq_some a' S0 s.mpTx hl, hmem1⟩
          · intro hc
            subst hc
            exact hS0 hmem1
        · rw [List.mem_singleton] at hmem1
          exact Or.inl ⟨hmem1, rfl⟩
      · refine Or.inr ⟨(hiff h' a').2 ⟨S, hS', hmemS⟩, ?_⟩
        intro hc
        subst hc
        exact hnotin a' ((hiff h' a').2 ⟨S, hS', hmemS⟩)

theorem alookup_value_unique {α : Type} (k : Nat) (v1 v2 : α)
    (m : List (Nat × α)) (hnd : (m.map Prod.fst).Nodup)
    (h1 : (k, v1) ∈ m) (h2 : (k, v2) ∈ m) : v1 = v2 := by
  have e1 := alookup_eq_some_of_mem k v1 m hnd h1
  have e2 := alookup_eq_some_of_mem k v2 m hnd h2
  rw [e1] at e2
  exact Option.some.inj e2

theorem MpInv_remove (h a : Nat) (s : MpState) (hmem : (h, a) ∈ s.rev)
    (hinv : MpInv s) : MpInv (removeMempoolTransaction h a s) := by
  obtain ⟨hnd1, hnd2, hsets, hiff⟩ := hinv
  obtain ⟨S, hSmem, hhS⟩ := (hiff h a).1 hmem
  have hl : alookup a s.mpTx = some S :=
    alookup_eq_some_of_mem a S s.mpTx hnd1 hSmem
  have hSnd : S.Nodup := (hsets _ hSmem).2
  have huniq : ∀ a', (h, a') ∈ s.rev → a' = a := fun a' hmem' =>
    alookup_value_unique h a' a s.rev hnd2 hmem' hmem
  rw [removeMempoolTransaction, hl]
  simp only [Option.getD_some]
  by_cases hlen : 1 < S.length
  · rw [if_pos hlen]
    refine ⟨nodup_keys_aset _ _ _ hnd1, nodup_keys_aerase _ _ hnd2, ?_, ?_⟩
    · intro p hp
      rw [← Prod.mk.eta (p := p)] at hp
      rcases (mem_aset_iff a _ s.mpTx hnd1 p.1 p.2).1 hp with ⟨hp1, hp2⟩ | ⟨hp1, hp2⟩
      · rw [hp2]
        constructor
        · intro hnil
          have : (S.erase h).length = S.length - 1 := List.length_erase_of_mem hhS
          rw [hnil] at this
          simp only [List.length_nil] at this
          omega
        · exact hSnd.erase h
      · exact hsets _ hp1
    · intro h' a'
      rw [mem_aerase_iff h s.rev hnd2 h' a']
      constructor
      · rintro ⟨hmem', hne⟩
        obtain ⟨S', hS', hmemS'⟩ := (hiff h' a').1 hmem'
        by_cases ha : a' = a
        · subst ha
          have : S' = S := alookup_value_unique a' S' S s.mpTx hnd1 hS' hSmem
          subst this
          refine ⟨S'.erase h, ?_, ?_⟩
          · exact (mem_aset_iff a' _ s.mpTx hnd1 a' _).2 (Or.inl ⟨rfl, rfl⟩)
          · exact hSnd.mem_erase_iff.2 ⟨hne, hmemS'⟩
        · exact ⟨S', (mem_aset_iff a _ s.mpTx hnd1 a' S').2
            (Or.inr ⟨hS', ha⟩), hmemS'⟩
      · rintro ⟨set, hset, hmemset⟩
        rcases (mem_aset_iff a _ s.mpTx hnd1 a' set).1 hset with ⟨rfl, rfl⟩ | ⟨hset', hne⟩
        · obtain ⟨hne', hmemS'⟩ := hSnd.mem_erase_iff.1 hmemset
          exact ⟨(hiff h' a').2 ⟨S, hSmem, hmemS'⟩, hne'⟩
        · refine ⟨(hiff h' a').2 ⟨set, hset', hmemset⟩, ?_⟩
          intro hc
          subst hc
          exact hne (huniq a' ((hiff h' a').2 ⟨set, hset', hmemset⟩))
  · rw [if_neg hlen]
    have hS1 : S = [h] := by
      have hlen1 : S.length = 1 := by
        have : 0 < S.length := List.length_pos.2 (by
          intro hnil
          rw [hnil] at hhS
          simp at hhS)
        omega
      obtain ⟨x, hx⟩ := List.length_eq_one.1 hlen1
      rw [hx] at hhS
      rw [List.mem_singleton] at hhS
      rw [hx, hhS]
    refine ⟨nodup_keys_aerase _ _ hnd1, nodup_keys_aerase _ _ hnd2, ?_, ?_⟩
    · intro p hp
      rw [← Prod.mk.eta (p := p)] at hp
      exact hsets _ ((mem_aerase_iff a s.mpTx hnd1 p.1 p.2).1 hp).1
    · intro h' a'
      rw [mem_aerase_iff h s.rev hnd2 h' a']
      constructor
      · rintro ⟨hmem', hne⟩
        obtain ⟨S', hS', hmemS'⟩ := (hiff h' a').1 hmem'
        have ha : a' ≠ a := by
          intro hc
          subst hc
          have : S' = S := alookup_value_unique a' S' S s.mpTx hnd1 hS' hSmem
          rw [this, hS1, List.mem_singleton] at hmemS'
          exact hne hmemS'
        exact ⟨S', (mem_aerase_iff a s.mpTx hnd1 a' S').2 ⟨hS', ha⟩, hmemS'⟩
      · rintro ⟨set, hset, hmemset⟩
        obtain ⟨hset', ha⟩ := (mem_aerase_iff a s.mpTx hnd1 a' set).1 hset
        refine ⟨(hiff h' a').2 ⟨set, hset', hmemset⟩, ?_⟩
        intro hc
        subst hc
        exact ha (huniq a' ((hiff h' a').2 ⟨set, hset', hmemset⟩))

theorem MpInv_step (s s' : MpState) (hstep : MpStep s s') (hinv : MpInv s) :
    MpInv s' := by
  cases hstep with
  | add h a _ hfresh => exact MpInv_add h a s hfresh hinv
  | remove h a _ hmem => exact MpInv_remove h a s hmem hinv

theorem MpInv_reachable (s : MpState)
    (hreach : Relation.ReflTransGen MpStep MpState.empty s) : MpInv s := by
  induction hreach with
  | refl => exact MpInv_empty
  | tail _ hstep ih => exact MpInv_step _ _ hstep ih

theorem count_eq_revCount (s : MpState) (hinv : MpInv s) (a : Nat) :
    getMempoolTransactionCount a s =
      (s.rev.filter (fun p => p.2 == a)).length := by
  obtain ⟨hnd1, hnd2, hsets, hiff⟩ := hinv
  rw [getMempoolTransactionCount]
  cases hl : alookup a s.mpTx with
  | none =>
    have hnil : s.rev.filter (fun p => p.2 == a) = [] := by
      rw [List.filter_eq_nil_iff]
      rintro ⟨h', a'⟩ hmem hbeq
      simp only [beq_iff_eq] at hbeq
      rw [hbeq] at hmem
      obtain ⟨S', hS', -⟩ := (hiff h' a).1 hmem
      exact alookup_ne_none_of_mem a S' s.mpTx hS' hl
    rw [hnil]
    rfl
  | some S =>
    have hSmem : (a, S) ∈ s.mpTx := mem_of_alookup_eq_some a S s.mpTx hl
    have hSnd : S.Nodup := (hsets _ hSmem).2
    have hndf : ((s.rev.filter (fun p => p.2 == a)).map Prod.fst).Nodup :=
      hnd2.sublist ((List.filter_sublist s.rev).map Prod.fst)
    have hmemiff : ∀ x, x ∈ S ↔
        x ∈ (s.rev.filter (fun p => p.2 == a)).map Prod.fst := by
      intro x
      constructor
      · intro hx
        have : (x, a) ∈ s.rev := (hiff x a).2 ⟨S, hSmem, hx⟩
        exact List.mem_map_of_mem Prod.fst
          (List.mem_filter.2 ⟨this, by simp⟩)
      · intro hx
        obtain ⟨p, hp, rfl⟩ := List.mem_map.1 hx
        obtain ⟨hprev, hpa⟩ := List.mem_filter.1 hp
        simp only [beq_iff_eq] at hpa
        obtain ⟨S', hS', hmemS'⟩ := (hiff p.1 p.2).1 hprev
        rw [hpa] at hS'
        have : S' = S := alookup_value_unique a S' S s.mpTx hnd1 hS' hSmem
        exact this ▸ hmemS'
    have hperm : List.Perm S ((s.rev.filter (fun p => p.2 == a)).map Prod.fst) :=
      List.perm_of_nodup_nodup_toFinset_eq hSnd hndf (by
        ext x
        simp only [List.mem_toFinset]
        exact hmemiff x)
    simp only [Option.getD_some]
    rw [hperm.length_eq, List.length_map]

/-- C10: in every state reachable from the fresh broadcaster through the
mutator calls made by `broadcastTransaction`, the mempool seeding and
the mining poll, the two mempool-tracking maps stay mutually consistent:
a hash is in a sender's tracked set iff the reverse index maps it to
that sender; consequently every tracked hash has exactly one owning
sender, no sender key maps to an empty tracked set, and
`_getMempoolTransactionCount(a)` equals the number of reverse-index
entries pointing at `a`. -/
theorem mempool_maps_consistent (s : MpState)
    (hreach : Relation.ReflTransGen MpStep MpState.empty s) :
    (∀ h a : Nat, (h, a) ∈ s.rev ↔ ∃ set, (a, set) ∈ s.mpTx ∧ h ∈ set) ∧
    (∀ h a1 a2 : Nat, (h, a1) ∈ s.rev → (h, a2) ∈ s.rev → a1 = a2) ∧
    (∀ p ∈ s.mpTx, p.2 ≠ []) ∧
    (∀ a : Nat, getMempoolTransactionCount a s =
      (s.rev.filter (fun p => p.2 == a)).length) := by
  have hinv := MpInv_reachable s hreach
  obtain ⟨hnd1, hnd2, hsets, hiff⟩ := hinv
  refine ⟨hiff, ?_, fun p hp => (hsets p hp).1,
    fun a => count_eq_revCount s ⟨hnd1, hnd2, hsets, hiff⟩ a⟩
  intro h a1 a2 h1 h2
  exact alookup_value_unique h a1 a2 s.rev hnd2 h1 h2

theorem mempool_maps_consistent_witness :
    (∀ h a : Nat, (h, a) ∈ mpEx.rev ↔ ∃ set, (a, set) ∈ mpEx.mpTx ∧ h ∈ set) ∧
    (∀ h a1 a2 : Nat, (h, a1) ∈ mpEx.rev → (h, a2) ∈ mpEx.rev → a1 = a2) ∧
    (∀ p ∈ mpEx.mpTx, p.2 ≠ []) ∧
    (∀ a : Nat, getMempoolTransactionCount a mpEx =
      (mpEx.rev.filter (fun p => p.2 == a)).length) :=
  mempool_maps_consistent mpEx
    (((((Relation.ReflTransGen.refl).tail
      (MpStep.add 1 10 _ (by rfl))).tail
      (MpStep.add 2 10 _ (by rfl))).tail
      (MpStep.add 3 20 _ (by rfl))).tail
      (MpStep.remove 1 10 _ (by decide)))

theorem indexOf_erase_of_lt : ∀ {l : List Nat} {t u : Nat}, l.Nodup →
    t ∈ l → u ∈ l → l.indexOf t < l.indexOf u →
    (l.erase u).indexOf t = l.indexOf t := by
  intro l
  induction l with
  | nil => intro t u _ ht; simp at ht
  | cons a l' ih =>
    intro t u hnd ht hu hlt
    simp only [List.nodup_cons] at hnd
    by_cases hau : a = u
    · subst hau
      rw [List.indexOf_cons_self] at hlt
      omega
    · rw [List.erase_cons_tail (by simpa using hau)]
      by_cases hat : a = t
      · subst hat
        rw [List.indexOf_cons_self, List.indexOf_cons_self]
      · have ht' : t ∈ l' := by
          rcases List.mem_cons.1 ht with h | h
          · exact absurd h.symm hat
          · exact h
        have hu' : u ∈ l' := by
          rcases List.mem_cons.1 hu with h | h
          · exact absurd h.symm hau
          · exact h
        rw [List.indexOf_cons_ne _ hat, List.indexOf_cons_ne _ hau] at hlt
        rw [List.indexOf_cons_ne _ hat, List.indexOf_cons_ne _ hat,
          ih hnd.2 ht' hu' (by omega)]

theorem indexOf_erase_of_gt : ∀ {l : List Nat} {t u : Nat}, l.Nodup →
    t ∈ l → u ∈ l → l.indexOf u < l.indexOf t →
    (l.erase u).indexOf t = l.indexOf t - 1 := by
  intro l
  induction l with
  | nil => intro t u _ ht; simp at ht
  | cons a l' ih =>
    intro t u hnd ht hu hgt
    simp only [List.nodup_cons] at hnd
    by_cases hau : a = u
    · subst hau
      rw [List.erase_cons_head]
      have hat : a ≠ t := by
        intro h
        subst h
        rw [List.indexOf_cons_self] at hgt
        omega
      rw [List.indexOf_cons_ne _ hat]
      omega
    · rw [List.erase_cons_tail (by simpa using hau)]
      by_cases hat : a = t
      · subst hat
        rw [List.indexOf_cons_self] at hgt
        omega
      · have ht' : t ∈ l' := by
          rcases List.mem_cons.1 ht with h | h
          · exact absurd h.symm hat
          · exact h
        have hu' : u ∈ l' := by
          rcases List.mem_cons.1 hu with h | h
          · exact absurd h.symm hau
          · exact h
        rw [List.indexOf_cons_ne _ hat, List.indexOf_cons_ne _ hau] at hgt
        rw [List.indexOf_cons_ne _ hat, List.indexOf_cons_ne _ hat,
          ih hnd.2 ht' hu' (by omega)]
        have : 1 ≤ l'.indexOf t := by omega
        omega

theorem updB_b (f : Nat → TaskState) (t : Nat) (x : BPhase) (u : Nat) :
    (Function.update f t { f t with b := x } u).b =
      if u = t then x else (f u).b := by
  by_cases h : u = t
  · subst h; rw [Function.update_same, if_pos rfl]
  · rw [Function.update_noteq h, if_neg h]

theorem updB_m (f : Nat → TaskState) (t : Nat) (x : BPhase) (u : Nat) :
    (Function.update f t { f t with b := x } u).m = (f u).m := by
  by_cases h : u = t
  · subst h; rw [Function.update_same]
  · rw [Function.update_noteq h]

theorem updB_c (f : Nat → TaskState) (t : Nat) (x : BPhase) (u : Nat) :
    (Function.update f t { f t with b := x } u).c = (f u).c := by
  by_cases h : u = t
  · subst h; rw [Function.update_same]
  · rw [Function.update_noteq h]

theorem updM_m (f : Nat → TaskState) (t : Nat) (x : MPhase) (u : Nat) :
    (Function.update f t { f t with m := x } u).m =
      if u = t then x else (f u).m := by
  by_cases h : u = t
  · subst h; rw [Function.update_same, if_pos rfl]
  · rw [Function.update_noteq h, if_neg h]

theorem updM_b (f : Nat → TaskState) (t : Nat) (x : MPhase) (u : Nat) :
    (Function.update f t { f t with m := x } u).b = (f u).b := by
  by_cases h : u = t
  · subst h; rw [Function.update_same]
  · rw [Function.update_noteq h]

theorem updM_c (f : Nat → TaskState) (t : Nat) (x : MPhase) (u : Nat) :
    (Function.update f t { f t with m := x } u).c = (f u).c := by
  by_cases h : u = t
  · subst h; rw [Function.update_same]
  · rw [Function.update_noteq h]

theorem updC_c (f : Nat → TaskState) (t : Nat) (x : CPhase) (u : Nat) :
    (Function.update f t { f t with c := x } u).c =
      if u = t then x else (f u).c := by
  by_cases h : u = t
  · subst h; rw [Function.update_same, if_pos rfl]
  · rw [Function.update_noteq h, if_neg h]

theorem updC_b (f : Nat → TaskState) (t : Nat) (x : CPhase) (u : Nat) :
    (Function.update f t { f t with c := x } u).b = (f u).b := by
  by_cases h : u = t
  · subst h; rw [Function.update_same]
  · rw [Function.update_noteq h]

theorem updC_m (f : Nat → TaskState) (t : Nat) (x : CPhase) (u : Nat) :
    (Function.update f t { f t with c := x } u).m = (f u).m := by
  by_cases h : u = t
  · subst h; rw [Function.update_same]
  · rw [Function.update_noteq h]

theorem InvB_init (cfg : BCfg) (seed : List (Nat × Nat)) :
    InvB cfg (initState seed) := by
  refine ⟨by simp [initState], ?_, by simp [initState], ?_, ?_, by simp [initState]⟩
  · intro t
    simp [initState]
  · intro t
    simp [initState]
  · intro t hb
    simp [initState] at hb

theorem InvB_step (cfg : BCfg) (s s' : BState) (l : BLabel)
    (hstep : BStep cfg s l s') (hinv : InvB cfg s) : InvB cfg s' := by
  obtain ⟨hwlN, hwlM, hifN, hifM, hbJ, hbound⟩ := hinv
  cases hstep with
  | startB t _ hb hc =>
    have htnot : t ∉ s.wl := fun hmem => absurd hb (((hwlM t).1 hmem).1)
    refine ⟨?_, ?_, hifN, ?_, ?_, hbound⟩
    · exact hwlN.append (List.nodup_singleton t)
        (fun x hx hx' => htnot ((List.mem_singleton.1 hx') ▸ hx))
    · intro u
      simp only [updB_b, updB_c, List.mem_append, List.mem_singleton]
      by_cases hu : u = t
      · subst hu
        rw [if_pos rfl]
        simp only [or_true, true_iff]
        exact ⟨by intro hcon; exact BPhase.noConfusion hcon, hc⟩
      · rw [if_neg hu]
        rw [hwlM u]
        simp [hu]
    · intro u
      simp only [updB_c]
      exact hifM u
    · intro u hbu hcu
      simp only [updB_b] at hbu
      simp only [updB_c] at hcu
      by_cases hu : u = t
      · rw [if_pos hu] at hbu
        exact absurd hbu (by intro hcon; exact BPhase.noConfusion hcon)
      · rw [if_neg hu] at hbu
        have humem : u ∈ s.wl := (hwlM u).2
          ⟨(by rw [hbu]; intro hcon; exact BPhase.noConfusion hcon), hcu⟩
        dsimp only
        rw [List.indexOf_append_of_mem humem]
        exact hbJ u hbu hcu
  | passB t _ hb hguard =>
    refine ⟨hwlN, ?_, hifN, ?_, ?_, hbound⟩
    · intro u
      simp only [updB_b, updB_c]
      by_cases hu : u = t
      · subst hu
        rw [if_pos rfl, hwlM u, hb]
        simp only [ne_eq]
        constructor
        · rintro ⟨-, hcu⟩
          exact ⟨by intro hcon; exact BPhase.noConfusion hcon, hcu⟩
        · rintro ⟨-, hcu⟩
          exact ⟨by intro hcon; exact BPhase.noConfusion hcon, hcu⟩
      · rw [if_neg hu]
        exact hwlM u
    · intro u
      simp only [updB_c]
      exact hifM u
    · intro u hbu hcu
      simp only [updB_b] at hbu
      simp only [updB_c] at hcu
      by_cases hu : u = t
      · subst hu
        exact hguard
      · rw [if_neg hu] at hbu
        exact hbJ u hbu hcu
  | startM t _ hm hc =>
    refine ⟨hwlN, ?_, hifN, ?_, ?_, hbound⟩
    · intro u
      simp only [updM_b, updM_c]
      exact hwlM u
    · intro u
      simp only [updM_c]
      exact hifM u
    · intro u hbu hcu
      simp only [updM_b] at hbu
      simp only [updM_c] at hcu
      exact hbJ u hbu hcu
  | passM t _ hm hguard =>
    refine ⟨hwlN, ?_, hifN, ?_, ?_, hbound⟩
    · intro u
      simp only [updM_b, updM_c]
      exact hwlM u
    · intro u
      simp only [updM_c]
      exact hifM u
    · intro u hbu hcu
      simp only [updM_b] at hbu
      simp only [updM_c] at hcu
      exact hbJ u hbu hcu
  | runCont t _ hb hm hc =>
    have htwl : t ∈ s.wl := (hwlM t).2
      ⟨(by rw [hb]; intro hcon; exact BPhase.noConfusion hcon), hc⟩
    have htif : t ∉ s.inflight := fun hmem => by
      rcases (hifM t).1 hmem with hcu | hcu <;> rw [hc] at hcu <;>
        exact CPhase.noConfusion hcu
    have hKP : s.inflight.length < cfg.K := by
      have := hbJ t hb hc
      omega
    refine ⟨hwlN.erase t, ?_, ?_, ?_, ?_, ?_⟩
    · intro u
      simp only [updC_b, updC_c]
      by_cases hu : u = t
      · subst hu
        rw [if_pos rfl]
        constructor
        · intro hmem
          exact absurd hmem (by
            intro hmem'
            exact ((hwlN.mem_erase_iff).1 hmem').1 rfl)
        · rintro ⟨-, hcon⟩
          exact CPhase.noConfusion hcon
      · rw [if_neg hu, List.mem_erase_of_ne hu]
        exact hwlM u
    · exact hifN.append (List.nodup_singleton t)
        (fun x hx hx' => htif ((List.mem_singleton.1 hx') ▸ hx))
    · intro u
      simp only [updC_c, List.mem_append, List.mem_singleton]
      by_cases hu : u = t
      · subst hu
        rw [if_pos rfl]
        simp
      · rw [if_neg hu]
        rw [hifM u]
        simp [hu]
    · intro u hbu hcu
      simp only [updC_b] at hbu
      simp only [updC_c] at hcu
      by_cases hu : u = t
      · rw [if_pos hu] at hcu
        exact CPhase.noConfusion hcu
      · rw [if_neg hu] at hcu
        have hult := hbJ u hbu hcu
        have humem : u ∈ s.wl := (hwlM u).2
          ⟨(by rw [hbu]; intro hcon; exact BPhase.noConfusion hcon), hcu⟩
        have hidxne : s.wl.indexOf u ≠ s.wl.indexOf t := by
          intro heq
          exact hu ((List.indexOf_inj humem htwl).1 heq)
        have hlen : (s.inflight ++ [t]).length = s.inflight.length + 1 := by
          simp
        dsimp only
        rw [hlen]
        rcases Nat.lt_or_ge (s.wl.indexOf u) (s.wl.indexOf t) with hlt | hge
        · rw [indexOf_erase_of_lt hwlN humem htwl hlt]
          have := hbJ t hb hc
          omega
        · have hgt : s.wl.indexOf t < s.wl.indexOf u := by omega
          rw [indexOf_erase_of_gt hwlN humem htwl hgt]
          omega
    · simp only [List.length_append, List.length_singleton]
      omega
  | sendFail t _ hc => exact ⟨hwlN, hwlM, hifN, hifM, hbJ, hbound⟩
  | sendOk t _ hc =>
    refine ⟨hwlN, ?_, hifN, ?_, ?_, hbound⟩
    · intro u
      simp only [updC_b, updC_c]
      by_cases hu : u = t
      · subst hu
        rw [if_pos rfl, hwlM u, hc]
        constructor
        · rintro ⟨-, hcon⟩
          exact CPhase.noConfusion hcon
        · rintro ⟨-, hcon⟩
          exact CPhase.noConfusion hcon
      · rw [if_neg hu]
        exact hwlM u
    · intro u
      simp only [updC_c]
      by_cases hu : u = t
      · subst hu
        rw [if_pos rfl, hifM u, hc]
        simp
      · rw [if_neg hu]
        exact hifM u
    · intro u hbu hcu
      simp only [updC_b] at hbu
      simp only [updC_c] at hcu
      by_cases hu : u = t
      · rw [if_pos hu] at hcu
        exact CPhase.noConfusion hcu
      · rw [if_neg hu] at hcu
        exact hbJ u hbu hcu
  | cleanup t _ hc =>
    have htif : t ∈ s.inflight := (hifM t).2 (Or.inr hc)
    have hlen : (s.inflight.erase t).length = s.inflight.length - 1 :=
      List.length_erase_of_mem htif
    have hpos : 0 < s.inflight.length := List.length_pos_of_mem htif
    refine ⟨hwlN, ?_, hifN.erase t, ?_, ?_, ?_⟩
    · intro u
      simp only [updC_b, updC_c]
      by_cases hu : u = t
      · subst hu
        rw [if_pos rfl, hwlM u, hc]
        constructor
        · rintro ⟨-, hcon⟩
          exact CPhase.noConfusion hcon
        · rintro ⟨-, hcon⟩
          exact CPhase.noConfusion hcon
      · rw [if_neg hu]
        exact hwlM u
    · intro u
      simp only [updC_c]
      by_cases hu : u = t
      · subst hu
        rw [if_pos rfl]
        constructor
        · intro hmem
          exact absurd rfl ((hifN.mem_erase_iff).1 hmem).1
        · rintro (hcon | hcon) <;> exact CPhase.noConfusion hcon
      · rw [if_neg hu, List.mem_erase_of_ne hu]
        exact hifM u
    · intro u hbu hcu
      simp only [updC_b] at hbu
      simp only [updC_c] at hcu
      by_cases hu : u = t
      · rw [if_pos hu] at hcu
        exact CPhase.noConfusion hcu
      · rw [if_neg hu] at hcu
        have := hbJ u hbu hcu
        dsimp only
        rw [hlen]
        omega
    · dsimp only
      rw [hlen]
      omega
  | awaitMining t _ hm => exact ⟨hwlN, hwlM, hifN, hifM, hbJ, hbound⟩
  | pollSame ht _ hl hsame => exact ⟨hwlN, hwlM, hifN, hifM, hbJ, hbound⟩
  | pollNew ht now _ hl hdiff => exact ⟨hwlN, hwlM, hifN, hifM, hbJ, hbound⟩

theorem InvB_reachable (cfg : BCfg) (seed : List (Nat × Nat)) (s : BState)
    (hreach : Reaches cfg seed s) : InvB cfg s := by
  induction hreach with
  | refl => exact InvB_init cfg seed
  | tail _ hstep ih =>
    obtain ⟨l, hstep⟩ := hstep
    exact InvB_step cfg _ _ l hstep ih

/-- C2: in every reachable broadcaster state the in-flight broadcast
promise set has at most `MAX_PARALLEL_BROADCASTS` elements, a step
removes a transaction from the global broadcast wait list exactly when
that same step adds its broadcast promise to the in-flight set (the
continuation of lines 44-47), and the completion of a broadcast (the
`.then` cleanup) leaves the wait list untouched. -/
theorem broadcaster_global_limit (cfg : BCfg) (seed : List (Nat × Nat))
    (s : BState) (hreach : Reaches cfg seed s) :
    s.inflight.length ≤ cfg.K ∧
    (∀ l s', BStep cfg s l s' → ∀ t : Nat,
      ((t ∈ s.wl ∧ t ∉ s'.wl) ↔ (t ∉ s.inflight ∧ t ∈ s'.inflight))) ∧
    (∀ t s', BStep cfg s (BLabel.cleanup t) s' → s'.wl = s.wl) := by
  have hinv := InvB_reachable cfg seed s hreach
  refine ⟨hinv.bound, ?_, ?_⟩
  · intro l s' hstep t
    cases hstep with
    | startB u _ hb hc =>
      dsimp only
      constructor
      · rintro ⟨h1, h2⟩
        exact absurd (List.mem_append_left [u] h1) h2
      · rintro ⟨h1, h2⟩
        exact absurd h2 h1
    | passB u _ hb hguard =>
      exact ⟨fun ⟨h1, h2⟩ => absurd h1 h2, fun ⟨h1, h2⟩ => absurd h2 h1⟩
    | startM u _ hm hc =>
      exact ⟨fun ⟨h1, h2⟩ => absurd h1 h2, fun ⟨h1, h2⟩ => absurd h2 h1⟩
    | passM u _ hm hguard =>
      exact ⟨fun ⟨h1, h2⟩ => absurd h1 h2, fun ⟨h1, h2⟩ => absurd h2 h1⟩
    | runCont u _ hb hm hc =>
      have huwl : u ∈ s.wl := (hinv.wlMem u).2
        ⟨(by rw [hb]; intro hcon; exact BPhase.noConfusion hcon), hc⟩
      have huif : u ∉ s.inflight := fun hmem => by
        rcases (hinv.inflightMem u).1 hmem with hcu | hcu <;> rw [hc] at hcu <;>
          exact CPhase.noConfusion hcu
      dsimp only
      constructor
      · rintro ⟨h1, h2⟩
        have ht : t = u := by
          by_contra hne
          exact h2 ((List.mem_erase_of_ne hne).2 h1)
        subst ht
        exact ⟨huif, List.mem_append_right _ (List.mem_singleton.2 rfl)⟩
      · rintro ⟨h1, h2⟩
        have ht : t = u := by
          rcases List.mem_append.1 h2 with hm' | hm'
          · exact absurd hm' h1
          · exact List.mem_singleton.1 hm'
        subst ht
        refine ⟨huwl, ?_⟩
        intro hmem
        exact ((hinv.wlNodup.mem_erase_iff).1 hmem).1 rfl
    | sendFail u _ hc =>
      exact ⟨fun ⟨h1, h2⟩ => absurd h1 h2, fun ⟨h1, h2⟩ => absurd h2 h1⟩
    | sendOk u _ hc =>
      exact ⟨fun ⟨h1, h2⟩ => absurd h1 h2, fun ⟨h1, h2⟩ => absurd h2 h1⟩
    | cleanup u _ hc =>
      dsimp only
      constructor
      · rintro ⟨h1, h2⟩
        exact absurd h1 h2
      · rintro ⟨h1, h2⟩
        exact absurd ((List.erase_sublist _ _).subset h2) h1
    | awaitMining u _ hm =>
      exact ⟨fun ⟨h1, h2⟩ => absurd h1 h2, fun ⟨h1, h2⟩ => absurd h2 h1⟩
    | pollSame ht _ hl hsame =>
      exact ⟨fun ⟨h1, h2⟩ => absurd h1 h2, fun ⟨h1, h2⟩ => absurd h2 h1⟩
    | pollNew ht now _ hl hdiff =>
      exact ⟨fun ⟨h1, h2⟩ => absurd h1 h2, fun ⟨h1, h2⟩ => absurd h2 h1⟩
  · intro t s' hstep
    cases hstep
    rfl

theorem broadcaster_global_limit_witness :
    (initState []).inflight.length ≤ cfgEx.K ∧
    (∀ l s', BStep cfgEx (initState []) l s' → ∀ t : Nat,
      ((t ∈ (initState []).wl ∧ t ∉ s'.wl) ↔
        (t ∉ (initState []).inflight ∧ t ∈ s'.inflight))) ∧
    (∀ t s', BStep cfgEx (initState []) (BLabel.cleanup t) s' →
      s'.wl = (initState []).wl) :=
  broadcaster_global_limit cfgEx [] (initState []) Relation.ReflTransGen.refl

theorem LoopInv_init (seed : List (Nat × Nat)) : LoopInv (initState seed) := by
  refine ⟨by simp [initState], ?_⟩
  simp [initState]

theorem LoopInv_step (cfg : BCfg) (s s' : BState) (l : BLabel)
    (hstep : BStep cfg s l s') (hinv : LoopInv s) : LoopInv s' := by
  obtain ⟨hone, hiff⟩ := hinv
  cases hstep with
  | startB t _ hb hc => exact ⟨hone, hiff⟩
  | passB t _ hb hguard => exact ⟨hone, hiff⟩
  | startM t _ hm hc => exact ⟨hone, hiff⟩
  | passM t _ hm hguard => exact ⟨hone, hiff⟩
  | runCont t _ hb hm hc => exact ⟨hone, hiff⟩
  | sendFail t _ hc => exact ⟨hone, hiff⟩
  | sendOk t _ hc => exact ⟨hone, hiff⟩
  | cleanup t _ hc => exact ⟨hone, hiff⟩
  | awaitMining t _ hm =>
    by_cases hact : s.miningActive
    · have hl1 : s.loops = 1 := hiff.1 hact
      refine ⟨?_, ?_⟩ <;> (dsimp only; rw [hact, if_pos rfl, hl1]; try simp)
    · have hl0 : s.loops = 0 := by
        have := hone
        have hne : s.loops ≠ 1 := fun h => hact (hiff.2 h)
        omega
      have hact' : s.miningActive = false := by
        cases h : s.miningActive
        · rfl
        · exact absurd h hact
      refine ⟨?_, ?_⟩ <;> (dsimp only; rw [hact', if_neg (by simp), hl0]; try simp)
  | pollSame ht _ hl hsame => exact ⟨hone, hiff⟩
  | pollNew ht now _ hl hdiff =>
    have hl1 : s.loops = 1 := by omega
    by_cases hmined : minedEntries now s.mp ≠ []
    · refine ⟨?_, ?_⟩
      · dsimp only
        rw [if_pos hmined]
        omega
      · dsimp only
        rw [if_pos hmined, if_pos hmined, hl1]
        simp
    · refine ⟨?_, ?_⟩
      · dsimp only
        rw [if_neg hmined]
        exact hone
      · dsimp only
        rw [if_neg hmined, if_neg hmined]
        exact hiff

theorem LoopInv_reachable (cfg : BCfg) (seed : List (Nat × Nat)) (s : BState)
    (hreach : Reaches cfg seed s) : LoopInv s := by
  induction hreach with
  | refl => exact LoopInv_init seed
  | tail _ hstep ih =>
    obtain ⟨l, hstep⟩ := hstep
    exact LoopInv_step cfg _ _ l hstep ih

/-- C5: at most one mined-transaction polling loop ever runs per
broadcaster instance (all `_awaitFreeMempoolSlot` waiters share the
memoized `_transactionMiningPromise`, set iff the one loop is running,
and any step keeps it so); a poll iteration whose fetched block height
equals `_lastBlockHeight` changes nothing — in particular it does not
consult or modify the tracked mempool maps — and just reschedules; a
mempool query happens only in iterations whose fetched height differs
from the last observed one; and a running poll resolves the shared
promise exactly when at least one previously tracked transaction was
found absent from the queried mempool. -/
theorem mining_poll_spec (cfg : BCfg) (seed : List (Nat × Nat)) (s : BState)
    (hreach : Reaches cfg seed s) :
    (s.loops ≤ 1 ∧ (s.miningActive = true ↔ s.loops = 1)) ∧
    (∀ l s', BStep cfg s l s' → s'.loops ≤ 1) ∧
    (∀ ht s', BStep cfg s (BLabel.pollSame ht) s' →
      s' = s ∧ ht = s.lastHeight) ∧
    (∀ ht now s', BStep cfg s (BLabel.pollNew ht now) s' →
      ht ≠ s.lastHeight ∧
      (minedEntries now s.mp ≠ [] ↔ ∃ p ∈ s.mp.rev, ¬ p.1 ∈ now) ∧
      (s.miningActive = true →
        (s'.miningActive = false ↔ minedEntries now s.mp ≠ []))) := by
  have hinv := LoopInv_reachable cfg seed s hreach
  refine ⟨⟨hinv.atMostOne, hinv.active_iff⟩, ?_, ?_, ?_⟩
  · intro l s' hstep
    exact (LoopInv_step cfg s s' l hstep hinv).atMostOne
  · intro ht s' hstep
    cases hstep with
    | pollSame _ _ hl hsame => exact ⟨rfl, hsame⟩
  · intro ht now s' hstep
    cases hstep with
    | pollNew _ _ _ hl hdiff =>
      refine ⟨hdiff, ?_, ?_⟩
      · constructor
        · intro hne
          by_contra hno
          push_neg at hno
          apply hne
          rw [minedEntries, List.filter_eq_nil_iff]
          intro p hp
          simp only [Bool.not_eq_true', Bool.not_eq_false]
          exact List.elem_eq_true_of_mem (hno p hp)
        · rintro ⟨p, hp, hnot⟩ hnil
          have : p ∈ minedEntries now s.mp := by
            rw [minedEntries, List.mem_filter]
            refine ⟨hp, ?_⟩
            simp only [Bool.not_eq_true']
            cases hcon : now.contains p.1 with
            | false => rfl
            | true => exact absurd (List.mem_of_elem_eq_true hcon) hnot
          rw [hnil] at this
          simp at this
      · intro hact
        dsimp only
        by_cases hmined : minedEntries now s.mp ≠ []
        · rw [if_pos hmined]
          simp [hmined]
        · rw [if_neg hmined]
          rw [hact]
          simp only [Bool.true_eq_false, false_iff]
          exact hmined

theorem mining_poll_spec_witness :
    (((initState [] : BState).loops ≤ 1 ∧
      ((initState [] : BState).miningActive = true ↔
        (initState [] : BState).loops = 1)) ∧
    (∀ l s', BStep cfgEx (initState []) l s' → s'.loops ≤ 1) ∧
    (∀ ht s', BStep cfgEx (initState []) (BLabel.pollSame ht) s' →
      s' = initState [] ∧ ht = (initState [] : BState).lastHeight) ∧
    (∀ ht now s', BStep cfgEx (initState []) (BLabel.pollNew ht now) s' →
      ht ≠ (initState [] : BState).lastHeight ∧
      (minedEntries now (initState [] : BState).mp ≠ [] ↔
        ∃ p ∈ (initState [] : BState).mp.rev, ¬ p.1 ∈ now) ∧
      ((initState [] : BState).miningActive = true →
        (s'.miningActive = false ↔
          minedEntries now (initState [] : BState).mp ≠ [])))) :=
  mining_poll_spec cfgEx [] (initState []) Relation.ReflTransGen.refl

theorem InvP_init (seed : List (Nat × Nat)) : InvP (initState seed) := by
  refine ⟨fun t hc => ?_⟩
  simp [initState] at hc

theorem InvP_step (cfg : BCfg) (s s' : BState) (l : BLabel)
    (hstep : BStep cfg s l s') (hinv : InvP s) : InvP s' := by
  obtain ⟨hst⟩ := hinv
  cases hstep with
  | startB t _ hb hc =>
    refine ⟨fun u hcu => ?_⟩
    rw [updB_c] at hcu
    rw [updB_b, updB_m]
    by_cases hu : u = t
    · subst hu
      exact absurd hc hcu
    · rw [if_neg hu]
      exact hst u hcu
  | passB t _ hb hguard =>
    refine ⟨fun u hcu => ?_⟩
    rw [updB_c] at hcu
    rw [updB_b, updB_m]
    by_cases hu : u = t
    · subst hu
      exact absurd (hst u hcu).1 (by rw [hb]; intro hcon; exact BPhase.noConfusion hcon)
    · rw [if_neg hu]
      exact hst u hcu
  | startM t _ hm hc =>
    refine ⟨fun u hcu => ?_⟩
    rw [updM_c] at hcu
    rw [updM_b, updM_m]
    by_cases hu : u = t
    · subst hu
      exact absurd hc hcu
    · rw [if_neg hu]
      exact hst u hcu
  | passM t _ hm hguard =>
    refine ⟨fun u hcu => ?_⟩
    rw [updM_c] at hcu
    rw [updM_b, updM_m]
    by_cases hu : u = t
    · subst hu
      exact absurd (hst u hcu).2 (by rw [hm]; intro hcon; exact MPhase.noConfusion hcon)
    · rw [if_neg hu]
      exact hst u hcu
  | runCont t _ hb hm hc =>
    refine ⟨fun u hcu => ?_⟩
    rw [updC_b, updC_m]
    by_cases hu : u = t
    · subst hu
      exact ⟨hb, hm⟩
    · rw [updC_c, if_neg hu] at hcu
      exact hst u hcu
  | sendFail t _ hc => exact ⟨hst⟩
  | sendOk t _ hc =>
    refine ⟨fun u hcu => ?_⟩
    rw [updC_b, updC_m]
    by_cases hu : u = t
    · subst hu
      exact hst u (by rw [hc]; intro hcon; exact CPhase.noConfusion hcon)
    · rw [updC_c, if_neg hu] at hcu
      exact hst u hcu
  | cleanup t _ hc =>
    refine ⟨fun u hcu => ?_⟩
    rw [updC_b, updC_m]
    by_cases hu : u = t
    · subst hu
      exact hst u (by rw [hc]; intro hcon; exact CPhase.noConfusion hcon)
    · rw [updC_c, if_neg hu] at hcu
      exact hst u hcu
  | awaitMining t _ hm => exact ⟨hst⟩
  | pollSame ht _ hl hsame => exact ⟨hst⟩
  | pollNew ht now _ hl hdiff => exact ⟨hst⟩

theorem aerase_sublist {α : Type} (k : Nat) (m : List (Nat × α)) :
    (aerase k m).Sublist m := by
  induction m with
  | nil => simp [aerase]
  | cons p rest ih =>
    obtain ⟨k', v'⟩ := p
    rw [aerase]
    split
    · exact List.sublist_cons_self _ _
    · exact ih.cons₂ _

theorem mem_aset_sub {α : Type} (k : Nat) (v : α) (m : List (Nat × α))
    (x : Nat) (y : α) (h : (x, y) ∈ aset k v m) :
    (x = k ∧ y = v) ∨ (x, y) ∈ m := by
  induction m with
  | nil =>
    rw [aset, List.mem_singleton] at h
    cases h
    exact Or.inl ⟨rfl, rfl⟩
  | cons p rest ih =>
    obtain ⟨k', v'⟩ := p
    rw [aset] at h
    split at h
    · rename_i hk
      subst hk
      rcases List.mem_cons.1 h with heq | hm
      · cases heq
        exact Or.inl ⟨rfl, rfl⟩
      · exact Or.inr (List.mem_cons_of_mem _ hm)
    · rcases List.mem_cons.1 h with heq | hm
      · cases heq
        exact Or.inr (List.mem_cons_self ..)
      · rcases ih hm with h' | h'
        · exact Or.inl h'
        · exact Or.inr (List.mem_cons_of_mem _ h')

theorem count_remove_le (h a a' : Nat) (s : MpState) (hinv : MpInv s) :
    getMempoolTransactionCount a' (removeMempoolTransaction h a s) ≤
      getMempoolTransactionCount a' s := by
  obtain ⟨hnd1, -, -, -⟩ := hinv
  rw [removeMempoolTransaction, getMempoolTransactionCount,
    getMempoolTransactionCount]
  by_cases ha : a' = a
  · subst ha
    split
    · rw [alookup_aset_self]
      simp only [Option.getD_some]
      exact (List.erase_sublist _ _).length_le
    · rw [alookup_aerase_self _ _ hnd1]
      simp
  · split
    · rw [alookup_aset_ne _ _ _ _ ha]
    · rw [alookup_aerase_ne _ _ _ ha]

theorem indexOf_mem_inj : ∀ {l : List Nat} {a b : Nat}, a ∈ l → b ∈ l →
    l.indexOf a = l.indexOf b → a = b := by
  intro l
  induction l with
  | nil => intro a b ha _ _; simp at ha
  | cons c l' ih =>
    intro a b ha hb he
    by_cases hca : c = a
    · subst hca
      by_cases hcb : c = b
      · exact hcb
      · rw [List.indexOf_cons_self, List.indexOf_cons_ne _ hcb] at he
        omega
    · rw [List.indexOf_cons_ne _ hca] at he
      by_cases hcb : c = b
      · subst hcb
        rw [List.indexOf_cons_self] at he
        omega
      · rw [List.indexOf_cons_ne _ hcb] at he
        have ha' : a ∈ l' := by
          rcases List.mem_cons.1 ha with h | h
          · exact absurd h.symm hca
          · exact h
        have hb' : b ∈ l' := by
          rcases List.mem_cons.1 hb with h | h
          · exact absurd h.symm hcb
          · exact h
        exact ih ha' hb' (by omega)

/-- Adding a fresh hash bumps the owner's tracked count by one and
leaves other senders untouched. -/
theorem count_add (h a : Nat) (s : MpState) (hinv : MpInv s)
    (hfresh : alookup h s.rev = none) :
    getMempoolTransactionCount a (addMempoolTransaction h a s) =
      getMempoolTransactionCount a s + 1 ∧
    ∀ a', a' ≠ a → getMempoolTransactionCount a' (addMempoolTransaction h a s) =
      getMempoolTransactionCount a' s := by
  obtain ⟨hnd1, hnd2, hsets, hiff⟩ := hinv
  have hnotin : ∀ x, (h, x) ∉ s.rev := not_mem_rev_of_alookup_none s h hfresh
  have hS0 : h ∉ (alookup a s.mpTx).getD [] := by
    intro hmem
    cases hl : alookup a s.mpTx with
    | none => rw [hl] at hmem; simp at hmem
    | some S =>
      rw [hl] at hmem
      exact hnotin a ((hiff h a).2 ⟨S, mem_of_alookup_eq_some a S s.mpTx hl, hmem⟩)
  constructor
  · rw [addMempoolTransaction, getMempoolTransactionCount,
      getMempoolTransactionCount]
    dsimp only
    rw [alookup_aset_self]
    simp only [Option.getD_some]
    rw [sadd, if_neg hS0]
    simp
  · intro a' ha
    rw [addMempoolTransaction, getMempoolTransactionCount,
      getMempoolTransactionCount]
    dsimp only
    rw [alookup_aset_ne _ _ _ _ ha]

theorem removeFold_props : ∀ (E : List (Nat × Nat)) (mp : MpState), MpInv mp →
    (∀ p ∈ E, p ∈ mp.rev) → (E.map Prod.fst).Nodup →
    MpInv (E.foldl (fun acc p => removeMempoolTransaction p.1 p.2 acc) mp) ∧
    (∀ a, getMempoolTransactionCount a
        (E.foldl (fun acc p => removeMempoolTransaction p.1 p.2 acc) mp) ≤
      getMempoolTransactionCount a mp) ∧
    (E.foldl (fun acc p => removeMempoolTransaction p.1 p.2 acc) mp).rev.Sublist
      mp.rev := by
  intro E
  induction E with
  | nil =>
    intro mp hinv _ _
    exact ⟨hinv, fun a => le_refl _, List.Sublist.refl _⟩
  | cons p E' ih =>
    intro mp hinv hmemE hnd
    simp only [List.foldl_cons]
    simp only [List.map_cons, List.nodup_cons] at hnd
    have hp : p ∈ mp.rev := hmemE p (List.mem_cons_self ..)
    have hinv1 : MpInv (removeMempoolTransaction p.1 p.2 mp) :=
      MpInv_remove p.1 p.2 mp (by rw [Prod.mk.eta]; exact hp) hinv
    have hmemE' : ∀ q ∈ E', q ∈ (removeMempoolTransaction p.1 p.2 mp).rev := by
      intro q hq
      have hq0 : q ∈ mp.rev := hmemE q (List.mem_cons_of_mem _ hq)
      have hne : q.1 ≠ p.1 :=
        fun he => hnd.1 (he ▸ List.mem_map_of_mem Prod.fst hq)
      have hmq : (q.1, q.2) ∈ aerase p.1 mp.rev :=
        (mem_aerase_iff p.1 mp.rev hinv.2.1 q.1 q.2).2
          ⟨by rw [Prod.mk.eta]; exact hq0, hne⟩
      rw [Prod.mk.eta] at hmq
      exact hmq
    obtain ⟨i1, i2, i3⟩ :=
      ih (removeMempoolTransaction p.1 p.2 mp) hinv1 hmemE' hnd.2
    refine ⟨i1, ?_, ?_⟩
    · intro a
      exact le_trans (i2 a) (count_remove_le p.1 p.2 a mp hinv)
    · exact i3.trans (aerase_sublist p.1 mp.rev)

/-- The removal sweep keeps the maps consistent, never increases any
sender's tracked count, and only removes reverse-index entries. -/
theorem removeMined_props (now : List Nat) (mp : MpState) (hinv : MpInv mp) :
    MpInv (removeMined now mp) ∧
    (∀ a, getMempoolTransactionCount a (removeMined now mp) ≤
      getMempoolTransactionCount a mp) ∧
    (removeMined now mp).rev.Sublist mp.rev := by
  have hsub : ∀ p ∈ minedEntries now mp, p ∈ mp.rev :=
    fun p hp => List.mem_of_mem_filter hp
  have hnd : ((minedEntries now mp).map Prod.fst).Nodup :=
    List.Nodup.sublist ((List.filter_sublist _).map Prod.fst) hinv.2.1
  exact removeFold_props (minedEntries now mp) mp hinv hsub hnd

theorem seedFold_props : ∀ (L : List (Nat × Nat)) (mp : MpState),
    MpInv mp → (L.map Prod.fst).Nodup →
    (∀ p ∈ L, alookup p.1 mp.rev = none) →
    MpInv (L.foldl (fun acc p => addMempoolTransaction p.1 p.2 acc) mp) ∧
    ∀ x ∈ (L.foldl (fun acc p => addMempoolTransaction p.1 p.2 acc) mp).rev,
      x ∈ mp.rev ∨ x ∈ L := by
  intro L
  induction L with
  | nil =>
    intro mp hinv _ _
    exact ⟨hinv, fun x hx => Or.inl hx⟩
  | cons p L' ih =>
    intro mp hinv hnd hfresh
    simp only [List.foldl_cons]
    simp only [List.map_cons, List.nodup_cons] at hnd
    have hfr : alookup p.1 mp.rev = none := hfresh p (List.mem_cons_self ..)
    have hinv1 : MpInv (addMempoolTransaction p.1 p.2 mp) :=
      MpInv_add p.1 p.2 mp hfr hinv
    have hfresh' : ∀ q ∈ L',
        alookup q.1 (addMempoolTransaction p.1 p.2 mp).rev = none := by
      intro q hq
      have hne : q.1 ≠ p.1 :=
        fun he => hnd.1 (he ▸ List.mem_map_of_mem Prod.fst hq)
      rw [show (addMempoolTransaction p.1 p.2 mp).rev = aset p.1 p.2 mp.rev
        from rfl, alookup_aset_ne p.1 q.1 p.2 mp.rev hne]
      exact hfresh q (List.mem_cons_of_mem _ hq)
    obtain ⟨i1, i2⟩ := ih (addMempoolTransaction p.1 p.2 mp) hinv1 hnd.2 hfresh'
    refine ⟨i1, ?_⟩
    intro x hx
    rcases i2 x hx with hx' | hx'
    · rw [show (addMempoolTransaction p.1 p.2 mp).rev = aset p.1 p.2 mp.rev
        from rfl] at hx'
      rcases mem_aset_sub p.1 p.2 mp.rev x.1 x.2
          (by rw [Prod.mk.eta]; exact hx') with ⟨h1, h2⟩ | h'
      · refine Or.inr ?_
        have hxp : x = p := Prod.ext h1 h2
        rw [hxp]
        exact List.mem_cons_self ..
      · refine Or.inl ?_
        rw [← Prod.mk.eta (p := x)]
        exact h'
    · exact Or.inr (List.mem_cons_of_mem _ hx')

theorem InvM_init (cfg : BCfg) (seed : List (Nat × Nat))
    (hseedN : (seed.map Prod.fst).Nodup)
    (hseedcount : ∀ t : Nat, getMempoolTransactionCount (cfg.txs t).sender
      (initState seed).mp ≤ limit cfg t) :
    InvM cfg seed (initState seed) := by
  have hfold := seedFold_props seed MpState.empty MpInv_empty hseedN
    (fun p _ => rfl)
  refine ⟨?_, ?_, ?_, ?_, hfold.1, ?_, hseedcount⟩
  · exact List.nodup_nil
  · intro a
    exact List.nodup_nil
  · intro a t
    constructor
    · intro hmem0
      exact absurd hmem0 (List.not_mem_nil t)
    · rintro ⟨-, hm, -⟩
      exact absurd rfl hm
  · intro t hm _
    exact absurd hm (by intro hcon; exact MPhase.noConfusion hcon)
  · intro h a hmem0
    rcases hfold.2 (h, a) hmem0 with hx | hx
    · exact absurd hx (List.not_mem_nil _)
    · exact Or.inl hx

theorem InvM_step (cfg : BCfg) (seed : List (Nat × Nat)) (s s' : BState)
    (l : BLabel)
    (hinj : ∀ t u : Nat, (cfg.txs t).hash = (cfg.txs u).hash → t = u)
    (hhomog : ∀ t u : Nat, (cfg.txs t).sender = (cfg.txs u).sender →
      limit cfg t = limit cfg u)
    (hseeddisj : ∀ (t : Nat), ∀ p ∈ seed, p.1 ≠ (cfg.txs t).hash)
    (hstep : BStep cfg s l s') (hinvP : InvP s) (hinv : InvM cfg seed s) :
    InvM cfg seed s' := by
  obtain ⟨hkeys, hnodup, hmem, hmJ, hmpinv, htr, hcnt⟩ := hinv
  cases hstep with
  | startB t _ hb hc =>
    refine ⟨hkeys, hnodup, ?_, ?_, hmpinv, ?_, hcnt⟩
    · intro a u
      simp only [updB_m, updB_c]
      exact hmem a u
    · intro u hmu hcu
      simp only [updB_m] at hmu
      simp only [updB_c] at hcu
      exact hmJ u hmu hcu
    · intro h a hmem'
      rcases htr h a hmem' with hs | ⟨u, h1, h2, h3⟩
      · exact Or.inl hs
      · exact Or.inr ⟨u, h1, h2, by simp only [updB_c]; exact h3⟩
  | passB t _ hb hguard =>
    refine ⟨hkeys, hnodup, ?_, ?_, hmpinv, ?_, hcnt⟩
    · intro a u
      simp only [updB_m, updB_c]
      exact hmem a u
    · intro u hmu hcu
      simp only [updB_m] at hmu
      simp only [updB_c] at hcu
      exact hmJ u hmu hcu
    · intro h a hmem'
      rcases htr h a hmem' with hs | ⟨u, h1, h2, h3⟩
      · exact Or.inl hs
      · exact Or.inr ⟨u, h1, h2, by simp only [updB_c]; exact h3⟩
  | startM t _ hm hc =>
    have htL : t ∉ (alookup (cfg.txs t).sender s.mpWl).getD [] := by
      intro hmem0
      exact ((hmem (cfg.txs t).sender t).1 hmem0).2.1 hm
    refine ⟨?_, ?_, ?_, ?_, hmpinv, ?_, hcnt⟩
    · exact nodup_keys_aset _ _ _ hkeys
    · intro a
      dsimp only
      by_cases ha : a = (cfg.txs t).sender
      · subst ha
        rw [alookup_aset_self]
        simp only [Option.getD_some]
        exact (hnodup _).append (List.nodup_singleton t)
          (fun x hx hx' => htL ((List.mem_singleton.1 hx') ▸ hx))
      · rw [alookup_aset_ne _ _ _ _ ha]
        exact hnodup a
    · intro a u
      simp only [updM_m, updM_c]
      by_cases ha : a = (cfg.txs t).sender
      · subst ha
        rw [alookup_aset_self]
        simp only [Option.getD_some, List.mem_append, List.mem_singleton]
        by_cases hu : u = t
        · subst hu
          simp only [if_pos rfl]
          constructor
          · intro _
            exact ⟨trivial, by intro hcon; exact MPhase.noConfusion hcon,
              by rw [hc]; intro hcon; exact CPhase.noConfusion hcon⟩
          · intro _
            exact Or.inr trivial
        · simp only [if_neg hu, or_iff_left hu]
          exact hmem _ u
      · rw [alookup_aset_ne _ _ _ _ ha]
        by_cases hu : u = t
        · subst hu
          constructor
          · intro hmem0
            exact absurd ((hmem a u).1 hmem0).1 ha
          · rintro ⟨h1, -⟩
            exact absurd h1 ha
        · simp only [if_neg hu]
          exact hmem a u
    · intro u hmu hcu
      simp only [updM_m] at hmu
      simp only [updM_c] at hcu
      have hu : u ≠ t := by
        intro he
        rw [if_pos he] at hmu
        exact MPhase.noConfusion hmu
      rw [if_neg hu] at hmu
      dsimp only
      by_cases hs : (cfg.txs u).sender = (cfg.txs t).sender
      · rw [hs, alookup_aset_self]
        simp only [Option.getD_some]
        have huL : u ∈ (alookup (cfg.txs t).sender s.mpWl).getD [] :=
          (hmem _ u).2 ⟨hs.symm,
            (by rw [hmu]; intro hcon; exact MPhase.noConfusion hcon), hcu⟩
        rw [List.indexOf_append_of_mem huL]
        have hmJu := hmJ u hmu hcu
        rw [hs] at hmJu
        exact hmJu
      · rw [alookup_aset_ne _ _ _ _ hs]
        exact hmJ u hmu hcu
    · intro h a hmem'
      rcases htr h a hmem' with hs | ⟨u, h1, h2, h3⟩
      · exact Or.inl hs
      · exact Or.inr ⟨u, h1, h2, by simp only [updM_c]; exact h3⟩
  | passM t _ hm hguard =>
    refine ⟨hkeys, hnodup, ?_, ?_, hmpinv, ?_, hcnt⟩
    · intro a u
      simp only [updM_m, updM_c]
      by_cases hu : u = t
      · subst hu
        simp only [if_pos rfl]
        constructor
        · intro h'
          obtain ⟨h1, -, h3⟩ := (hmem a u).1 h'
          exact ⟨h1, by intro hcon; exact MPhase.noConfusion hcon, h3⟩
        · rintro ⟨h1, -, h3⟩
          exact (hmem a u).2 ⟨h1,
            (by rw [hm]; intro hcon; exact MPhase.noConfusion hcon), h3⟩
      · simp only [if_neg hu]
        exact hmem a u
    · intro u hmu hcu
      simp only [updM_m] at hmu
      simp only [updM_c] at hcu
      dsimp only
      by_cases hu : u = t
      · subst hu
        exact hguard
      · rw [if_neg hu] at hmu
        exact hmJ u hmu hcu
    · intro h a hmem'
      rcases htr h a hmem' with hs | ⟨u, h1, h2, h3⟩
      · exact Or.inl hs
      · exact Or.inr ⟨u, h1, h2, by simp only [updM_c]; exact h3⟩
  | runCont t _ hb hm hc =>
    refine ⟨hkeys, hnodup, ?_, ?_, hmpinv, ?_, hcnt⟩
    · intro a u
      simp only [updC_m, updC_c]
      by_cases hu : u = t
      · subst hu
        simp only [if_pos rfl]
        constructor
        · intro h'
          obtain ⟨h1, h2, -⟩ := (hmem a u).1 h'
          exact ⟨h1, h2, by intro hcon; exact CPhase.noConfusion hcon⟩
        · rintro ⟨h1, h2, -⟩
          exact (hmem a u).2 ⟨h1, h2,
            (by rw [hc]; intro hcon; exact CPhase.noConfusion hcon)⟩
      · simp only [if_neg hu]
        exact hmem a u
    · intro u hmu hcu
      simp only [updC_m] at hmu
      simp only [updC_c] at hcu
      dsimp only
      by_cases hu : u = t
      · subst hu
        exact hmJ u hmu (by rw [hc]; intro hcon; exact CPhase.noConfusion hcon)
      · rw [if_neg hu] at hcu
        exact hmJ u hmu hcu
    · intro h a hmem'
      rcases htr h a hmem' with hs | ⟨u, h1, h2, h3⟩
      · exact Or.inl hs
      · refine Or.inr ⟨u, h1, h2, ?_⟩
        have hu : u ≠ t := by
          intro he
          rw [he, hc] at h3
          exact CPhase.noConfusion h3
        simp only [updC_c, if_neg hu]
        exact h3
  | sendFail t _ hc =>
    exact ⟨hkeys, hnodup, hmem, hmJ, hmpinv, htr, hcnt⟩
  | sendOk t _ hc =>
    refine ⟨hkeys, hnodup, ?_, ?_, hmpinv, ?_, hcnt⟩
    · intro a u
      simp only [updC_m, updC_c]
      by_cases hu : u = t
      · subst hu
        simp only [if_pos rfl]
        constructor
        · intro h'
          obtain ⟨h1, h2, -⟩ := (hmem a u).1 h'
          exact ⟨h1, h2, by intro hcon; exact CPhase.noConfusion hcon⟩
        · rintro ⟨h1, h2, -⟩
          exact (hmem a u).2 ⟨h1, h2,
            (by rw [hc]; intro hcon; exact CPhase.noConfusion hcon)⟩
      · simp only [if_neg hu]
        exact hmem a u
    · intro u hmu hcu
      simp only [updC_m] at hmu
      simp only [updC_c] at hcu
      dsimp only
      by_cases hu : u = t
      · subst hu
        exact hmJ u hmu (by rw [hc]; intro hcon; exact CPhase.noConfusion hcon)
      · rw [if_neg hu] at hcu
        exact hmJ u hmu hcu
    · intro h a hmem'
      rcases htr h a hmem' with hs | ⟨u, h1, h2, h3⟩
      · exact Or.inl hs
      · refine Or.inr ⟨u, h1, h2, ?_⟩
        have hu : u ≠ t := by
          intro he
          rw [he, hc] at h3
          exact CPhase.noConfusion h3
        simp only [updC_c, if_neg hu]
        exact h3
  | cleanup t _ hc =>
    have hmt : (s.tasks t).m = MPhase.passed :=
      (hinvP.started t
        (by rw [hc]; intro hcon; exact CPhase.noConfusion hcon)).2
    have hct : (s.tasks t).c ≠ CPhase.finished := by
      rw [hc]; intro hcon; exact CPhase.noConfusion hcon
    have htL : t ∈ (alookup (cfg.txs t).sender s.mpWl).getD [] :=
      (hmem _ t).2 ⟨rfl,
        (by rw [hmt]; intro hcon; exact MPhase.noConfusion hcon), hct⟩
    have hLnd : ((alookup (cfg.txs t).sender s.mpWl).getD []).Nodup :=
      hnodup _
    have hfresh : alookup (cfg.txs t).hash s.mp.rev = none := by
      cases hl : alookup (cfg.txs t).hash s.mp.rev with
      | none => rfl
      | some a' =>
        have hmem' : ((cfg.txs t).hash, a') ∈ s.mp.rev :=
          mem_of_alookup_eq_some _ a' s.mp.rev hl
        rcases htr _ a' hmem' with hs | ⟨u, h1, h2, h3⟩
        · exact absurd rfl (hseeddisj t _ hs)
        · have he : u = t := hinj u t h1
          rw [he, hc] at h3
          exact CPhase.noConfusion h3
    have hLafter : (alookup (cfg.txs t).sender
        (if 1 < ((alookup (cfg.txs t).sender s.mpWl).getD []).length then
          aset (cfg.txs t).sender
            (((alookup (cfg.txs t).sender s.mpWl).getD []).erase t) s.mpWl
        else aerase (cfg.txs t).sender s.mpWl)).getD [] =
        ((alookup (cfg.txs t).sender s.mpWl).getD []).erase t := by
      split
      · rw [alookup_aset_self]
        rfl
      · rename_i hlen
        have hpos : 0 < ((alookup (cfg.txs t).sender s.mpWl).getD []).length :=
          List.length_pos_of_mem htL
        have hlen1 : ((alookup (cfg.txs t).sender s.mpWl).getD []).length = 1 :=
          by omega
        obtain ⟨x, hx⟩ := List.length_eq_one.1 hlen1
        have htx : t = x := by
          have h0 := htL
          rw [hx, List.mem_singleton] at h0
          exact h0
        rw [alookup_aerase_self _ _ hkeys, hx, ← htx]
        simp
    have hLaNe : ∀ a, a ≠ (cfg.txs t).sender →
        alookup a
          (if 1 < ((alookup (cfg.txs t).sender s.mpWl).getD []).length then
            aset (cfg.txs t).sender
              (((alookup (cfg.txs t).sender s.mpWl).getD []).erase t) s.mpWl
          else aerase (cfg.txs t).sender s.mpWl) = alookup a s.mpWl := by
      intro a ha
      split
      · exact alookup_aset_ne _ _ _ _ ha
      · exact alookup_aerase_ne _ _ _ ha
    obtain ⟨hcadd, hcother⟩ :=
      count_add (cfg.txs t).hash (cfg.txs t).sender s.mp hmpinv hfresh
    refine ⟨?_, ?_, ?_, ?_, ?_, ?_, ?_⟩
    · dsimp only
      split
      · exact nodup_keys_aset _ _ _ hkeys
      · exact nodup_keys_aerase _ _ hkeys
    · intro a
      dsimp only
      by_cases ha : a = (cfg.txs t).sender
      · subst ha
        rw [hLafter]
        exact hLnd.erase t
      · rw [hLaNe a ha]
        exact hnodup a
    · intro a u
      simp only [updC_m, updC_c]
      by_cases ha : a = (cfg.txs t).sender
      · subst ha
        rw [hLafter]
        by_cases hu : u = t
        · subst hu
          simp only [if_pos rfl]
          constructor
          · intro h'
            exact absurd rfl (hLnd.mem_erase_iff.1 h').1
          · rintro ⟨-, -, h3⟩
            exact absurd rfl h3
        · simp only [if_neg hu]
          constructor
          · intro h'
            exact (hmem _ u).1 (hLnd.mem_erase_iff.1 h').2
          · intro h'
            exact hLnd.mem_erase_iff.2 ⟨hu, (hmem _ u).2 h'⟩
      · rw [hLaNe a ha]
        by_cases hu : u = t
        · subst hu
          simp only [if_pos rfl]
          constructor
          · intro h'
            exact absurd ((hmem a u).1 h').1 ha
          · rintro ⟨h1, -⟩
            exact absurd h1 ha
        · simp only [if_neg hu]
          exact hmem a u
    · intro u hmu hcu
      simp only [updC_m] at hmu
      simp only [updC_c] at hcu
      have hu : u ≠ t := by
        intro he
        rw [if_pos he] at hcu
        exact hcu rfl
      rw [if_neg hu] at hcu
      dsimp only
      by_cases hs : (cfg.txs u).sender = (cfg.txs t).sender
      · rw [hs, hLafter, hcadd]
        have huL : u ∈ (alookup (cfg.txs t).sender s.mpWl).getD [] :=
          (hmem _ u).2 ⟨hs.symm,
            (by rw [hmu]; intro hcon; exact MPhase.noConfusion hcon), hcu⟩
        have hmJu := hmJ u hmu hcu
        rw [hs] at hmJu
        have hmJt := hmJ t hmt hct
        have hlim : limit cfg t = limit cfg u := hhomog t u (by rw [hs])
        have hne : ((alookup (cfg.txs t).sender s.mpWl).getD []).indexOf u ≠
            ((alookup (cfg.txs t).sender s.mpWl).getD []).indexOf t := by
          intro he
          exact hu (indexOf_mem_inj huL htL he)
        by_cases hlt : ((alookup (cfg.txs t).sender s.mpWl).getD []).indexOf u <
            ((alookup (cfg.txs t).sender s.mpWl).getD []).indexOf t
        · rw [indexOf_erase_of_lt hLnd huL htL hlt]
          omega
        · rw [indexOf_erase_of_gt hLnd huL htL (by omega)]
          omega
      · rw [hLaNe _ hs, hcother _ hs]
        exact hmJ u hmu hcu
    · exact MpInv_add _ _ s.mp hfresh hmpinv
    · intro h a hmem'
      have hmem2 : (h, a) ∈ aset (cfg.txs t).hash (cfg.txs t).sender s.mp.rev :=
        hmem'
      rcases mem_aset_sub _ _ _ h a hmem2 with ⟨h1, h2⟩ | h'
      · subst h1
        subst h2
        refine Or.inr ⟨t, rfl, rfl, ?_⟩
        dsimp only
        rw [updC_c, if_pos rfl]
      · rcases htr h a h' with hs | ⟨u, h1, h2, h3⟩
        · exact Or.inl hs
        · refine Or.inr ⟨u, h1, h2, ?_⟩
          dsimp only
          rw [updC_c]
          split
          · rfl
          · exact h3
    · intro v
      dsimp only
      by_cases hv : (cfg.txs v).sender = (cfg.txs t).sender
      · rw [hv, hcadd]
        have hmJt := hmJ t hmt hct
        have hlim : limit cfg t = limit cfg v := hhomog t v (by rw [hv])
        omega
      · rw [hcother _ hv]
        exact hcnt v
  | awaitMining t _ hm =>
    exact ⟨hkeys, hnodup, hmem, hmJ, hmpinv, htr, hcnt⟩
  | pollSame ht _ hl hsame =>
    exact ⟨hkeys, hnodup, hmem, hmJ, hmpinv, htr, hcnt⟩
  | pollNew ht now _ hl hdiff =>
    obtain ⟨r1, r2, r3⟩ := removeMined_props now s.mp hmpinv
    refine ⟨hkeys, hnodup, hmem, ?_, r1, ?_, ?_⟩
    · intro u hmu hcu
      have h1 := hmJ u hmu hcu
      have h2 := r2 (cfg.txs u).sender
      dsimp only
      omega
    · intro h a hmem'
      exact htr h a (r3.subset hmem')
    · intro v
      exact le_trans (r2 _) (hcnt v)

theorem InvPM_reachable (cfg : BCfg) (seed : List (Nat × Nat))
    (hinj : ∀ t u : Nat, (cfg.txs t).hash = (cfg.txs u).hash → t = u)
    (hhomog : ∀ t u : Nat, (cfg.txs t).sender = (cfg.txs u).sender →
      limit cfg t = limit cfg u)
    (hseedN : (seed.map Prod.fst).Nodup)
    (hseeddisj : ∀ (t : Nat), ∀ p ∈ seed, p.1 ≠ (cfg.txs t).hash)
    (hseedcount : ∀ t : Nat, getMempoolTransactionCount (cfg.txs t).sender
      (initState seed).mp ≤ limit cfg t)
    (s : BState) (hreach : Reaches cfg seed s) :
    InvP s ∧ InvM cfg seed s := by
  induction hreach with
  | refl => exact ⟨InvP_init seed, InvM_init cfg seed hseedN hseedcount⟩
  | tail _ hstep ih =>
    obtain ⟨l, hl⟩ := hstep
    exact ⟨InvP_step cfg _ _ l hl ih.1,
      InvM_step cfg seed _ _ l hinj hhomog hseeddisj hl ih.1 ih.2⟩

/-- C3: In every reachable broadcaster state — for a transaction
population with distinct hashes whose senders do not mix fee tiers (the
program's own premise: all its transactions share the free tier), and a
mempool seeding of distinct hashes, disjoint from the population, that
respects the limits — (1) the set of transactions tracked as occupying a
sender's mempool slots never exceeds the applicable per-sender limit
(`free_tx_per_sender_max` when the fee per byte is below the relay-fee
minimum, else `tx_per_sender_max`); (2) a task on a sender's wait list is
never simultaneously tracked, and (3) a transaction becomes tracked only
by the cleanup step that follows a successful broadcast, which removes it
from the sender's wait list at that same step; (4) wait-listed
transactions of one sender become admissible in FIFO order: if the
mempool guard admits a later-queued transaction, it admits every
earlier-queued one. -/
theorem broadcaster_per_sender_limit (cfg : BCfg) (seed : List (Nat × Nat))
    (hinj : ∀ t u : Nat, (cfg.txs t).hash = (cfg.txs u).hash → t = u)
    (hhomog : ∀ t u : Nat, (cfg.txs t).sender = (cfg.txs u).sender →
      limit cfg t = limit cfg u)
    (hseedN : (seed.map Prod.fst).Nodup)
    (hseeddisj : ∀ (t : Nat), ∀ p ∈ seed, p.1 ≠ (cfg.txs t).hash)
    (hseedcount : ∀ t : Nat, getMempoolTransactionCount (cfg.txs t).sender
      (initState seed).mp ≤ limit cfg t)
    (s : BState) (hreach : Reaches cfg seed s) :
    (∀ t : Nat,
      getMempoolTransactionCount (cfg.txs t).sender s.mp ≤ limit cfg t) ∧
    (∀ t : Nat, t ∈ (alookup (cfg.txs t).sender s.mpWl).getD [] →
      alookup (cfg.txs t).hash s.mp.rev = none) ∧
    (∀ (l : BLabel) (s' : BState) (t : Nat), BStep cfg s l s' →
      alookup (cfg.txs t).hash s.mp.rev = none →
      alookup (cfg.txs t).hash s'.mp.rev ≠ none →
      l = BLabel.cleanup t ∧ (s.tasks t).c = CPhase.resolved ∧
        t ∈ (alookup (cfg.txs t).sender s.mpWl).getD [] ∧
        t ∉ (alookup (cfg.txs t).sender s'.mpWl).getD []) ∧
    (∀ t1 t2 : Nat, (cfg.txs t1).sender = (cfg.txs t2).sender →
      ((alookup (cfg.txs t1).sender s.mpWl).getD []).indexOf t1 <
        ((alookup (cfg.txs t1).sender s.mpWl).getD []).indexOf t2 →
      ((alookup (cfg.txs t2).sender s.mpWl).getD []).indexOf t2 <
        limit cfg t2 - getMempoolTransactionCount (cfg.txs t2).sender s.mp →
      ((alookup (cfg.txs t1).sender s.mpWl).getD []).indexOf t1 <
        limit cfg t1 - getMempoolTransactionCount (cfg.txs t1).sender s.mp) := by
  obtain ⟨hP, hM⟩ := InvPM_reachable cfg seed hinj hhomog hseedN hseeddisj
    hseedcount s hreach
  refine ⟨hM.mCount, ?_, ?_, ?_⟩
  · intro t hmem0
    have hctf : (s.tasks t).c ≠ CPhase.finished :=
      ((hM.mpWlMem _ t).1 hmem0).2.2
    cases hl : alookup (cfg.txs t).hash s.mp.rev with
    | none => rfl
    | some a' =>
      exfalso
      have hmem1 : ((cfg.txs t).hash, a') ∈ s.mp.rev :=
        mem_of_alookup_eq_some _ _ _ hl
      rcases hM.tracked _ _ hmem1 with hs | ⟨u, h1, h2, h3⟩
      · exact absurd rfl (hseeddisj t _ hs)
      · have he : u = t := hinj u t h1
        rw [he] at h3
        exact hctf h3
  · intro l s' t hstep hnone hsome
    cases hstep with
    | startB u _ hb hc => exact absurd hnone hsome
    | passB u _ hb hguard => exact absurd hnone hsome
    | startM u _ hm hc => exact absurd hnone hsome
    | passM u _ hm hguard => exact absurd hnone hsome
    | runCont u _ hb hm hc => exact absurd hnone hsome
    | sendFail u _ hc => exact absurd hnone hsome
    | sendOk u _ hc => exact absurd hnone hsome
    | awaitMining u _ hm => exact absurd hnone hsome
    | pollSame ht _ hl hsame => exact absurd hnone hsome
    | pollNew ht now _ hl hdiff =>
      exfalso
      cases hl2 : alookup (cfg.txs t).hash (removeMined now s.mp).rev with
      | none => exact hsome hl2
      | some a' =>
        have hmem2 : ((cfg.txs t).hash, a') ∈ (removeMined now s.mp).rev :=
          mem_of_alookup_eq_some _ _ _ hl2
        have hmem3 : ((cfg.txs t).hash, a') ∈ s.mp.rev :=
          (removeMined_props now s.mp hM.mpinv).2.2.subset hmem2
        exact alookup_ne_none_of_mem _ _ _ hmem3 hnone
    | cleanup u _ hc =>
      by_cases hh : (cfg.txs t).hash = (cfg.txs u).hash
      · have htu : t = u := hinj t u hh
        subst htu
        have hmtp : (s.tasks t).m = MPhase.passed :=
          (hP.started t
            (by rw [hc]; intro hcon; exact CPhase.noConfusion hcon)).2
        have hctf : (s.tasks t).c ≠ CPhase.finished := by
          rw [hc]; intro hcon; exact CPhase.noConfusion hcon
        have htL : t ∈ (alookup (cfg.txs t).sender s.mpWl).getD [] :=
          (hM.mpWlMem _ t).2 ⟨rfl,
            (by rw [hmtp]; intro hcon; exact MPhase.noConfusion hcon), hctf⟩
        have hLnd : ((alookup (cfg.txs t).sender s.mpWl).getD []).Nodup :=
          hM.mpWlNodup _
        refine ⟨rfl, hc, htL, ?_⟩
        have hafter : (alookup (cfg.txs t).sender
            (if 1 < ((alookup (cfg.txs t).sender s.mpWl).getD []).length then
              aset (cfg.txs t).sender
                (((alookup (cfg.txs t).sender s.mpWl).getD []).erase t) s.mpWl
            else aerase (cfg.txs t).sender s.mpWl)).getD [] =
            ((alookup (cfg.txs t).sender s.mpWl).getD []).erase t := by
          split
          · rw [alookup_aset_self]
            rfl
          · rename_i hlen
            have hpos :
                0 < ((alookup (cfg.txs t).sender s.mpWl).getD []).length :=
              List.length_pos_of_mem htL
            have hlen1 :
                ((alookup (cfg.txs t).sender s.mpWl).getD []).length = 1 :=
              by omega
            obtain ⟨x, hx⟩ := List.length_eq_one.1 hlen1
            have htx : t = x := by
              have h0 := htL
              rw [hx, List.mem_singleton] at h0
              exact h0
            rw [alookup_aerase_self _ _ hM.mpWlKeys, hx, ← htx]
            simp
        intro hmem0
        rw [show (alookup (cfg.txs t).sender
            { wl := s.wl
              inflight := s.inflight.erase t
              mpWl :=
                if 1 < ((alookup (cfg.txs t).sender s.mpWl).getD []).length then
                  aset (cfg.txs t).sender
                    (((alookup (cfg.txs t).sender s.mpWl).getD []).erase t)
                    s.mpWl
                else aerase (cfg.txs t).sender s.mpWl
              mp := addMempoolTransaction (cfg.txs t).hash (cfg.txs t).sender
                s.mp
              tasks := Function.update s.tasks t
                { s.tasks t with c := CPhase.finished }
              miningActive := s.miningActive
              loops := s.loops
              lastHeight := s.lastHeight : BState }.mpWl).getD [] =
            ((alookup (cfg.txs t).sender s.mpWl).getD []).erase t
          from hafter] at hmem0
        exact absurd rfl (hLnd.mem_erase_iff.1 hmem0).1
      · exfalso
        have hnone' : alookup (cfg.txs t).hash
            (aset (cfg.txs u).hash (cfg.txs u).sender s.mp.rev) = none := by
          rw [alookup_aset_ne _ _ _ _ hh]
          exact hnone
        exact hsome hnone'
  · intro t1 t2 hs h12 hen
    have hlim : limit cfg t1 = limit cfg t2 := hhomog t1 t2 hs
    rw [← hs] at hen
    omega

theorem broadcaster_per_sender_limit_witness :
    getMempoolTransactionCount (cfgEx.txs 0).sender
      (initState ([] : List (Nat × Nat))).mp ≤ limit cfgEx 0 :=
  (broadcaster_per_sender_limit cfgEx [] (fun _ _ h => h) (fun _ _ _ => rfl)
    List.nodup_nil (fun _ p hp => absurd hp (List.not_mem_nil p))
    (fun _ => Nat.zero_le _) (initState []) Relation.ReflTransGen.refl).1 0

theorem scanTx_wasFunded (reclaim : Option Nat) (dayOf : Nat → Nat)
    (caddr : Nat) (acc : ScanAcc) (tx : RpcTx) :
    (scanTx reclaim dayOf caddr acc tx).wasFunded =
      (acc.wasFunded || (tx.toAddr == caddr)) := by
  rw [scanTx]
  by_cases h1 : tx.toAddr = caddr
  · simp [h1]
  · rw [if_neg h1]
    by_cases h2 : some tx.toAddr = reclaim
    · simp [h1, h2]
    · simp [h1, h2]

theorem scanTx_wasReclaimed (reclaim : Option Nat) (dayOf : Nat → Nat)
    (caddr : Nat) (acc : ScanAcc) (tx : RpcTx) :
    (scanTx reclaim dayOf caddr acc tx).wasReclaimed =
      (acc.wasReclaimed || (!(tx.toAddr == caddr) && (some tx.toAddr == reclaim))) := by
  rw [scanTx]
  by_cases h1 : tx.toAddr = caddr
  · simp [h1]
  · rw [if_neg h1]
    by_cases h2 : some tx.toAddr = reclaim
    · simp [h1, h2]
    · simp [h1, h2]

theorem scanTx_wasUserClaimed (reclaim : Option Nat) (dayOf : Nat → Nat)
    (caddr : Nat) (acc : ScanAcc) (tx : RpcTx) :
    (scanTx reclaim dayOf caddr acc tx).wasUserClaimed =
      (acc.wasUserClaimed || isClaimTx reclaim caddr tx) := by
  rw [scanTx]
  by_cases h1 : tx.toAddr = caddr
  · simp [isClaimTx, h1]
  · rw [if_neg h1]
    by_cases h2 : some tx.toAddr = reclaim
    · simp [isClaimTx, h1, h2]
    · simp [isClaimTx, h1, h2]

/-- The flags after the loop are existential over the whole transaction
list: every transaction is classified, with no short-circuit. -/
theorem scan_flags (reclaim : Option Nat) (dayOf : Nat → Nat) (caddr : Nat) :
    ∀ (txs : List RpcTx) (acc : ScanAcc),
    (txs.foldl (scanTx reclaim dayOf caddr) acc).wasFunded =
      (acc.wasFunded || txs.any (fun tx => tx.toAddr == caddr)) ∧
    (txs.foldl (scanTx reclaim dayOf caddr) acc).wasReclaimed =
      (acc.wasReclaimed ||
        txs.any (fun tx => !(tx.toAddr == caddr) && (some tx.toAddr == reclaim))) ∧
    (txs.foldl (scanTx reclaim dayOf caddr) acc).wasUserClaimed =
      (acc.wasUserClaimed || txs.any (isClaimTx reclaim caddr)) := by
  intro txs
  induction txs with
  | nil =>
    intro acc
    simp
  | cons tx rest ih =>
    intro acc
    simp only [List.foldl_cons, List.any_cons]
    obtain ⟨i1, i2, i3⟩ := ih (scanTx reclaim dayOf caddr acc tx)
    rw [i1, i2, i3, scanTx_wasFunded, scanTx_wasReclaimed,
      scanTx_wasUserClaimed]
    refine ⟨?_, ?_, ?_⟩
    · rw [Bool.or_assoc]
    · rw [Bool.or_assoc]
    · rw [Bool.or_assoc]

/-- The shared maps after one cashlink's scan are the event-fold of its
claim events. -/
theorem scan_maps (reclaim : Option Nat) (dayOf : Nat → Nat) (caddr : Nat) :
    ∀ (txs : List RpcTx) (acc : ScanAcc),
    (txs.foldl (scanTx reclaim dayOf caddr) acc).maps =
      ((txs.filter (isClaimTx reclaim caddr)).map
        (fun tx => (tx.toAddr, dayOf tx.timestamp))).foldl evStep acc.maps := by
  intro txs
  induction txs with
  | nil => intro acc; rfl
  | cons tx rest ih =>
    intro acc
    simp only [List.foldl_cons]
    by_cases h1 : tx.toAddr = caddr
    · have hf : isClaimTx reclaim caddr tx = false := by simp [isClaimTx, h1]
      rw [List.filter_cons_of_neg (by simp [hf]), ih]
      congr 1
      rw [scanTx, if_pos h1]
    · by_cases h2 : some tx.toAddr = reclaim
      · have hf : isClaimTx reclaim caddr tx = false := by
          simp [isClaimTx, h1, h2]
        rw [List.filter_cons_of_neg (by simp [hf]), ih]
        congr 1
        rw [scanTx, if_neg h1, if_pos h2]
      · have ht : isClaimTx reclaim caddr tx = true := by
          simp [isClaimTx, h1, h2]
        rw [List.filter_cons_of_pos (by simp [ht]), List.map_cons,
          List.foldl_cons, ih]
        congr 1
        rw [scanTx, if_neg h1, if_neg h2, evStep]

/-- The shared maps of the whole run are the event-fold of all claim
events in processing order. -/
theorem core_maps (reclaim : Option Nat) (dayOf : Nat → Nat) :
    ∀ (batch : List (Nat × List RpcTx)) (st : StatState),
    (batch.foldl (processCashlink reclaim dayOf) st).maps =
      (claimEvents reclaim dayOf batch).foldl evStep st.maps := by
  intro batch
  induction batch with
  | nil => intro st; rfl
  | cons c bs ih =>
    intro st
    simp only [List.foldl_cons]
    rw [ih]
    have hc : (processCashlink reclaim dayOf st c).maps =
        (txEvents reclaim dayOf c).foldl evStep st.maps := by
      rw [processCashlink]
      dsimp only
      rw [scan_maps reclaim dayOf c.1]
      rfl
    rw [hc, show claimEvents reclaim dayOf (c :: bs) =
      txEvents reclaim dayOf c ++ claimEvents reclaim dayOf bs from by
        simp [claimEvents], List.foldl_append]

/-- The unclaimed counter counts exactly the cashlinks that were funded
and neither user-claimed nor reclaimed. -/
theorem core_unclaimed (reclaim : Option Nat) (dayOf : Nat → Nat) :
    ∀ (batch : List (Nat × List RpcTx)) (st : StatState),
    (batch.foldl (processCashlink reclaim dayOf) st).unclaimed =
      st.unclaimed + (batch.filter (fun c =>
        c.2.any (fun tx => tx.toAddr == c.1) &&
        !(c.2.any (isClaimTx reclaim c.1)) &&
        !(c.2.any (fun tx => !(tx.toAddr == c.1) && (some tx.toAddr == reclaim))))).length := by
  intro batch
  induction batch with
  | nil => intro st; simp
  | cons c bs ih =>
    intro st
    simp only [List.foldl_cons]
    rw [ih]
    have hp : (processCashlink reclaim dayOf st c).unclaimed =
        st.unclaimed + (if c.2.any (fun tx => tx.toAddr == c.1) &&
          !(c.2.any (isClaimTx reclaim c.1)) &&
          !(c.2.any (fun tx => !(tx.toAddr == c.1) && (some tx.toAddr == reclaim)))
          then 1 else 0) := by
      rw [processCashlink]
      dsimp only
      obtain ⟨s1, s2, s3⟩ := scan_flags reclaim dayOf c.1 c.2
        ⟨false, false, false, st.maps⟩
      rw [s1, s2, s3]
      simp only [Bool.false_or]
    rw [hp, List.filter_cons]
    by_cases hc : (c.2.any (fun tx => tx.toAddr == c.1) &&
        !(c.2.any (isClaimTx reclaim c.1)) &&
        !(c.2.any (fun tx => !(tx.toAddr == c.1) && (some tx.toAddr == reclaim)))) = true
    · rw [if_pos hc, if_pos hc, List.length_cons]
      omega
    · rw [if_neg hc, if_neg hc]
      omega

theorem countAddr_eq_zero_iff (evs : List (Nat × Nat)) (a : Nat) :
    countAddr evs a = 0 ↔ a ∉ evs.map Prod.fst := by
  rw [countAddr, List.length_eq_zero, List.filter_eq_nil_iff]
  constructor
  · intro h hmem
    obtain ⟨e, he, hfst⟩ := List.mem_map.1 hmem
    exact (h e he) (by simp [hfst])
  · intro h e he
    simp only [beq_iff_eq]
    intro hfst
    exact h (List.mem_map.2 ⟨e, he, hfst⟩)

theorem countAddr_append_singleton (hist : List (Nat × Nat)) (e : Nat × Nat)
    (a : Nat) : countAddr (hist ++ [e]) a =
      countAddr hist a + (if e.1 = a then 1 else 0) := by
  rw [countAddr, countAddr, List.filter_append, List.length_append]
  congr 1
  by_cases h : e.1 = a
  · simp [h]
  · simp [h]

theorem countDay_append_singleton (hist : List (Nat × Nat)) (e : Nat × Nat)
    (d : Nat) : countDay (hist ++ [e]) d =
      countDay hist d + (if e.2 = d then 1 else 0) := by
  rw [countDay, countDay, List.filter_append, List.length_append]
  congr 1
  by_cases h : e.2 = d
  · simp [h]
  · simp [h]

theorem firstOcc_concat : ∀ (l : List (Nat × Nat)) (s : List Nat)
    (e : Nat × Nat), firstOcc (l.concat e) s =
      firstOcc l s ++ (if e.1 ∈ s ∨ e.1 ∈ l.map Prod.fst then [] else [e]) := by
  intro l
  induction l with
  | nil =>
    intro s e
    by_cases h : e.1 ∈ s
    · simp [firstOcc, h]
    · simp [firstOcc, h]
  | cons f l' ih =>
    intro s e
    simp only [List.concat_cons, firstOcc, List.map_cons]
    by_cases hf : f.1 ∈ s
    · rw [if_pos hf, if_pos hf, ih]
      have hiff : (e.1 ∈ s ∨ e.1 ∈ l'.map Prod.fst) ↔
          (e.1 ∈ s ∨ e.1 ∈ f.1 :: l'.map Prod.fst) := by
        constructor
        · rintro (h | h)
          · exact Or.inl h
          · exact Or.inr (List.mem_cons_of_mem _ h)
        · rintro (h | h)
          · exact Or.inl h
          · rcases List.mem_cons.1 h with h3 | h4
            · exact Or.inl (h3 ▸ hf)
            · exact Or.inr h4
      rw [if_congr hiff rfl rfl]
    · rw [if_neg hf, if_neg hf, ih, List.cons_append]
      congr 1
      have hiff : (e.1 ∈ f.1 :: s ∨ e.1 ∈ l'.map Prod.fst) ↔
          (e.1 ∈ s ∨ e.1 ∈ f.1 :: l'.map Prod.fst) := by
        constructor
        · rintro (h | h)
          · rcases List.mem_cons.1 h with h3 | h4
            · exact Or.inr (List.mem_cons.2 (Or.inl h3))
            · exact Or.inl h4
          · exact Or.inr (List.mem_cons_of_mem _ h)
        · rintro (h | h)
          · exact Or.inl (List.mem_cons_of_mem _ h)
          · rcases List.mem_cons.1 h with h3 | h4
            · exact Or.inl (List.mem_cons.2 (Or.inl h3))
            · exact Or.inr h4
      rw [if_congr hiff rfl rfl]

theorem countFirstDay_append_singleton (hist : List (Nat × Nat))
    (e : Nat × Nat) (d : Nat) : countFirstDay (hist ++ [e]) d =
      countFirstDay hist d +
        (if e.1 ∉ hist.map Prod.fst ∧ e.2 = d then 1 else 0) := by
  rw [countFirstDay, countFirstDay,
    show hist ++ [e] = hist.concat e from (List.concat_eq_append _ _).symm,
    firstOcc_concat, List.filter_append, List.length_append]
  congr 1
  by_cases h1 : e.1 ∈ hist.map Prod.fst
  · rw [if_pos (Or.inr h1)]
    simp [h1]
  · have hcond : ¬ (e.1 ∈ ([] : List Nat) ∨ e.1 ∈ hist.map Prod.fst) := by
      rintro (h | h)
      · exact (List.not_mem_nil _) h
      · exact h1 h
    rw [if_neg hcond]
    by_cases h2 : e.2 = d
    · simp [h1, h2]
    · simp [h1, h2]

/-- Characterization of the event fold: `claimsPerAddress` holds each
address's claim count and `claimsPerDate` holds each day's claim count
paired with its count of first-ever claims. -/
theorem evFold_char : ∀ (evs : List (Nat × Nat)) (m : StatMaps)
    (hist : List (Nat × Nat)),
    (∀ a, (alookup a m.cpa).getD 0 = countAddr hist a) →
    (∀ d, (alookup d m.cpd).getD (0, 0) =
      (countDay hist d, countFirstDay hist d)) →
    (∀ a, (alookup a (evs.foldl evStep m).cpa).getD 0 =
      countAddr (hist ++ evs) a) ∧
    (∀ d, (alookup d (evs.foldl evStep m).cpd).getD (0, 0) =
      (countDay (hist ++ evs) d, countFirstDay (hist ++ evs) d)) := by
  intro evs
  induction evs with
  | nil =>
    intro m hist h1 h2
    simp only [List.foldl_nil, List.append_nil]
    exact ⟨h1, h2⟩
  | cons e evs' ih =>
    intro m hist h1 h2
    simp only [List.foldl_cons]
    have h1' : ∀ a, (alookup a (evStep m e).cpa).getD 0 =
        countAddr (hist ++ [e]) a := by
      intro a
      rw [countAddr_append_singleton]
      simp only [evStep]
      by_cases ha : a = e.1
      · subst ha
        rw [alookup_aset_self]
        simp only [Option.getD_some]
        rw [h1]
        simp
      · rw [alookup_aset_ne _ _ _ _ ha, h1, if_neg (fun h => ha h.symm)]
        omega
    have h2' : ∀ d, (alookup d (evStep m e).cpd).getD (0, 0) =
        (countDay (hist ++ [e]) d, countFirstDay (hist ++ [e]) d) := by
      intro d
      rw [countDay_append_singleton, countFirstDay_append_singleton]
      simp only [evStep]
      by_cases hd : d = e.2
      · subst hd
        rw [alookup_aset_self]
        simp only [Option.getD_some]
        rw [h2, h1]
        simp only [Prod.mk.injEq]
        constructor
        · simp
        · by_cases hz : countAddr hist e.1 = 0
          · have hnm : e.1 ∉ hist.map Prod.fst :=
              (countAddr_eq_zero_iff hist e.1).1 hz
            rw [if_pos hz]
            simp [hnm]
          · have hm2 : e.1 ∈ hist.map Prod.fst := by
              by_contra hnm
              exact hz ((countAddr_eq_zero_iff hist e.1).2 hnm)
            rw [if_neg hz]
            simp [hm2]
      · rw [alookup_aset_ne _ _ _ _ hd, h2, if_neg (fun h => hd h.symm),
          if_neg (fun hcon => hd hcon.2.symm)]
        simp
    obtain ⟨g1, g2⟩ := ih (evStep m e) (hist ++ [e]) h1' h2'
    constructor
    · intro a
      rw [g1 a, List.append_assoc, List.singleton_append]
    · intro d
      rw [g2 d, List.append_assoc, List.singleton_append]

/-- C9: `createStatistics` classifies each cashlink by scanning all of
its transactions with no short-circuit — the flags are existential over
the whole history: a transaction to the cashlink's own address marks it
funded, one to the configured reclaim address marks it reclaimed, any
other destination marks it user-claimed; a cashlink is counted unclaimed
iff it is funded and neither user-claimed nor reclaimed; and for every
day key, `claimsPerDate` holds the number of that day's claims paired
with the number of that day's claims that are the destination address's
first claim ever across the whole batch (`claimsPerAddress` holding each
address's total). -/
theorem createStatistics_classification (reclaim : Option Nat)
    (dayOf : Nat → Nat) (batch : List (Nat × List RpcTx)) :
    (∀ (caddr : Nat) (txs : List RpcTx) (m : StatMaps),
      (txs.foldl (scanTx reclaim dayOf caddr)
          ⟨false, false, false, m⟩).wasFunded =
        txs.any (fun tx => tx.toAddr == caddr) ∧
      (txs.foldl (scanTx reclaim dayOf caddr)
          ⟨false, false, false, m⟩).wasReclaimed =
        txs.any (fun tx => !(tx.toAddr == caddr) && (some tx.toAddr == reclaim)) ∧
      (txs.foldl (scanTx reclaim dayOf caddr)
          ⟨false, false, false, m⟩).wasUserClaimed =
        txs.any (isClaimTx reclaim caddr)) ∧
    ((createStatisticsCore reclaim dayOf batch).unclaimed =
      (batch.filter (fun c =>
        c.2.any (fun tx => tx.toAddr == c.1) &&
        !(c.2.any (isClaimTx reclaim c.1)) &&
        !(c.2.any (fun tx =>
          !(tx.toAddr == c.1) && (some tx.toAddr == reclaim))))).length) ∧
    (∀ a, (alookup a (createStatisticsCore reclaim dayOf batch).maps.cpa).getD 0
      = countAddr (claimEvents reclaim dayOf batch) a) ∧
    (∀ d, (alookup d
        (createStatisticsCore reclaim dayOf batch).maps.cpd).getD (0, 0) =
      (countDay (claimEvents reclaim dayOf batch) d,
        countFirstDay (claimEvents reclaim dayOf batch) d)) := by
  have hmaps : (createStatisticsCore reclaim dayOf batch).maps =
      (claimEvents reclaim dayOf batch).foldl evStep initStats.maps := by
    rw [createStatisticsCore, core_maps]
  have hchar := evFold_char (claimEvents reclaim dayOf batch) initStats.maps []
    (fun a => rfl) (fun d => rfl)
  refine ⟨?_, ?_, ?_, ?_⟩
  · intro caddr txs m
    obtain ⟨s1, s2, s3⟩ := scan_flags reclaim dayOf caddr txs
      ⟨false, false, false, m⟩
    rw [s1, s2, s3]
    exact ⟨Bool.false_or _, Bool.false_or _, Bool.false_or _⟩
  · rw [createStatisticsCore, core_unclaimed]
    simp [initStats]
  · intro a
    rw [hmaps]
    exact hchar.1 a
  · intro d
    rw [hmaps]
    exact hchar.2 d

end Nimiq
